import Mathlib

/-!
Shallow embedding of the knowledge-graph core of the sci-hypothesis-gen
repository: concept extraction (GraphBuilder.extractConcepts /
identifyConcepts / classifyConceptType / normalizeConceptId), co-occurrence
edge building (GraphBuilder.buildRelationships), and the reasoning engine
(GraphReasoner: findPaths, sampleDiversePaths, randomWalk, selectNextNode,
constructGraphPath, calculateNoveltyScore, findBridgeConcepts,
searchConcepts, getCommunity, getCommunityConcepts).

Conventions of the embedding:
- JavaScript numbers are modelled as ℚ (for weights/scores) and ℕ (for
  counts/indices).  Float rounding is not modelled; divisions that are
  well-defined over ℚ model the corresponding float divisions.  Where the
  source can divide by zero (JS Infinity/NaN) the embedding makes the case
  explicit in the guard that consumes the quotient.
- JS `Map` objects are modelled as insertion-ordered association lists,
  which matches `Map` iteration order.
- `Math.random()` is modelled as an injectable stream `ℕ → ℚ` of values
  together with a running index; the runtime contract is that each value
  lies in `[0,1)`.
-/

attribute [local semireducible] Rat.mul Rat.add Rat.sub Rat.inv

/-- Source `types/index.ts`: the `type` union of `ConceptNode`
(`'concept' | 'method' | 'material' | 'theory' | 'phenomenon'`). -/
inductive ConceptType
  | concept
  | method
  | material
  | theory
  | phenomenon
deriving DecidableEq, Repr

/-- Source `types/index.ts` `Paper`.  Fields not consumed by the graph core
(authors, year, journal, doi, pmid, citations) are omitted; `keywords`
absent is modelled by the empty list (its join is the empty string either
way). -/
structure Paper where
  id : String
  title : String
  abstract : String
  keywords : List String := []
deriving DecidableEq, Repr

/-- Source `types/index.ts` `ConceptNode`.  The free-form `properties`
record and the reserved optional `embedding` vector are unused by the core
and omitted. -/
structure ConceptNode where
  id : String
  label : String
  type : ConceptType
  papers : List String
  frequency : ℕ
deriving DecidableEq, Repr

/-- Source `types/index.ts` `ConceptEdge`; the relation kind is always
the literal string `"relates_to"` in the builder. -/
structure ConceptEdge where
  source : String
  target : String
  type : String
  weight : ℚ
  confidence : ℚ
  evidence : List String
deriving DecidableEq, Repr

/-- Source `types/index.ts` `GraphPath`. -/
structure GraphPath where
  nodes : List ConceptNode
  edges : List ConceptEdge
  length : ℕ
  totalWeight : ℚ
  novelty : ℚ
deriving DecidableEq, Repr

/-! ## String utilities (JS regex / string semantics used by the builder) -/

/-- Character class `[a-z]` of the token/keyword regexes. -/
def isLowerAlpha (c : Char) : Bool := 'a' ≤ c && c ≤ 'z'

/-- Character class `[0-9]`. -/
def isDigitCh (c : Char) : Bool := '0' ≤ c && c ≤ '9'

/-- JS regex word character (the class `\w` used by the boundary `\b`). -/
def isWordChar (c : Char) : Bool :=
  isLowerAlpha c || isDigitCh c || ('A' ≤ c && c ≤ 'Z') || c = '_'

/-- JS whitespace (`\s`), restricted to the ASCII whitespace that can occur
in the corpus texts. -/
def isWs (c : Char) : Bool := c = ' ' || c = '\t' || c = '\n' || c = '\r'

/-- JS `String.prototype.toLowerCase` on ASCII text (character-wise
lowercasing). -/
def toLowerStr (s : String) : String := String.mk (s.toList.map Char.toLower)

/-- JS `Map.prototype.get` on an insertion-ordered association list
(`none` models `undefined`). -/
def alookup {kt bt : Type} [DecidableEq kt] (k : kt) : List (kt × bt) → Option bt
  | [] => none
  | e :: es => if e.1 = k then some e.2 else alookup k es

/-- Whether the position right after a candidate token satisfies the word
boundary `\b` (end of input, or a non-word character follows). -/
def endBoundary : List Char → Bool
  | [] => true
  | c :: _ => !isWordChar c

/-- Scanner for `text.match(/\b[a-z]+(?:-[a-z]+)?\b/g)` (source
`identifyConcepts`).  `prevW` records whether the previous character is a
word character (so `\b` can be checked at a candidate start).  Greedy
matching with backtracking reduces to: take the maximal letter run `r1`;
optionally extend by `-` and a maximal letter run `r2` when the end
boundary after `r2` holds; otherwise fall back to `r1` alone, which is a
match exactly when the character after it is not a word character (after a
`-` it always is a match).  The first argument is fuel (the scanner
consumes at least one character per step). -/
def tokenizeAux : ℕ → Bool → List Char → List (List Char)
  | 0, _, _ => []
  | _, _, [] => []
  | fuel+1, prevW, c :: rest =>
    if isLowerAlpha c && !prevW then
      let r1 := (c :: rest).takeWhile isLowerAlpha
      let rest1 := (c :: rest).dropWhile isLowerAlpha
      match rest1 with
      | '-' :: d :: rest2 =>
        if isLowerAlpha d then
          let r2 := (d :: rest2).takeWhile isLowerAlpha
          let rest3 := (d :: rest2).dropWhile isLowerAlpha
          if endBoundary rest3 then (r1 ++ '-' :: r2) :: tokenizeAux fuel true rest3
          else r1 :: tokenizeAux fuel true rest1
        else r1 :: tokenizeAux fuel true rest1
      | _ =>
        if endBoundary rest1 then r1 :: tokenizeAux fuel true rest1
        else tokenizeAux fuel true rest1
    else tokenizeAux fuel (isWordChar c) rest

/-- Tokenization step of `identifyConcepts`:
`text.toLowerCase().match(/\b[a-z]+(?:-[a-z]+)?\b/g) || []`. -/
def tokenize (s : String) : List String :=
  (tokenizeAux (s.length + 1) false s.toList).map String.mk

/-- Phrase generation loop of `identifyConcepts`: for each index `i`, push
the bigram at `i`, then (when a third word exists) the trigram at `i`. -/
def buildPhrases : List String → List String
  | w1 :: w2 :: w3 :: rest =>
    (w1 ++ " " ++ w2) :: (w1 ++ " " ++ w2 ++ " " ++ w3) :: buildPhrases (w2 :: w3 :: rest)
  | [w1, w2] => [w1 ++ " " ++ w2]
  | _ => []

/-- One step of the `phraseFreq` map construction
(`phraseFreq.set(phrase, (phraseFreq.get(phrase) || 0) + 1)`), on an
insertion-ordered association list. -/
def bumpCount (m : List (String × ℕ)) (p : String) : List (String × ℕ) :=
  if (alookup p m).isSome then
    m.map (fun e => if e.1 = p then (e.1, e.2 + 1) else e)
  else m ++ [(p, 1)]

/-- The `phraseFreq` map of `identifyConcepts` in `Map` iteration
(insertion) order. -/
def countPhrases (ps : List String) : List (String × ℕ) := ps.foldl bumpCount []

/-! ## The four keyword-family regexes of `identifyConcepts` -/

/-- Alternatives of `patterns.method`. -/
def methodKeywords : List String :=
  ["method", "technique", "approach", "algorithm", "procedure", "protocol", "assay"]

/-- Alternatives of `patterns.material`. -/
def materialKeywords : List String :=
  ["material", "compound", "protein", "molecule", "cell", "tissue", "polymer", "composite"]

/-- Alternatives of `patterns.theory`. -/
def theoryKeywords : List String :=
  ["theory", "model", "hypothesis", "framework", "paradigm", "principle"]

/-- Alternatives of `patterns.phenomenon`. -/
def phenomenonKeywords : List String :=
  ["effect", "phenomenon", "process", "mechanism", "pathway", "interaction"]

/-- Whether the keyword `kw` matches at position `i` of `s` with both `\b`
boundaries satisfied (the lookbehind inspects `s` itself, irrespective of
`lastIndex`). -/
def keywordMatchAt (s : List Char) (i : ℕ) (kw : List Char) : Bool :=
  ((s.drop i).take kw.length == kw)
  && (match i with
      | 0 => true
      | j+1 => match s.get? j with
        | some c => !isWordChar c
        | none => true)
  && (match s.get? (i + kw.length) with
      | some c => !isWordChar c
      | none => true)

/-- The first alternative of the family matching at position `i`
(regex alternation order). -/
def firstKeywordAt (kws : List (List Char)) (s : List Char) (i : ℕ) : Option (List Char) :=
  kws.find? (fun kw => keywordMatchAt s i kw)

/-- Leftmost-match scan from position `i` (first argument is fuel); returns
the end position of the match. -/
def scanForKeyword (kws : List (List Char)) (s : List Char) : ℕ → ℕ → Option ℕ
  | 0, _ => none
  | fuel+1, i =>
    if i > s.length then none
    else match firstKeywordAt kws s i with
      | some kw => some (i + kw.length)
      | none => scanForKeyword kws s fuel (i+1)

/-- JS `RegExp.prototype.test` on a regex with the `g` flag, given the
regex's current `lastIndex`: search from `lastIndex` (failing immediately
when `lastIndex` exceeds the string length); on success return `true` and
the new `lastIndex` (the match end); on failure return `false` and reset
`lastIndex` to 0. -/
def regexTestG (kws : List (List Char)) (s : List Char) (lastIndex : ℕ) : Bool × ℕ :=
  if lastIndex > s.length then (false, 0)
  else match scanForKeyword kws s (s.length + 1 - lastIndex) lastIndex with
    | some e => (true, e)
    | none => (false, 0)

/-- Mutable `lastIndex` state of the four `/g` regexes in the `patterns`
object, which is created once per `identifyConcepts` call and shared by all
`classifyConceptType` calls of that paper. -/
structure RegexState where
  methodIdx : ℕ
  materialIdx : ℕ
  theoryIdx : ℕ
  phenomenonIdx : ℕ
deriving DecidableEq, Repr

/-- Fresh `patterns` object: every `lastIndex` is 0. -/
def initRegexState : RegexState := ⟨0, 0, 0, 0⟩

/-- Source `GraphBuilder.classifyConceptType`: test the four stateful `/g`
regexes in `Object.entries` order (method, material, theory, phenomenon)
and return the first matching family, defaulting to `'concept'`.  The
`lastIndex` of every regex that was exercised is threaded through. -/
def classifyConceptType (phrase : List Char) (st : RegexState) : ConceptType × RegexState :=
  let rm := regexTestG (methodKeywords.map String.toList) phrase st.methodIdx
  let st1 := { st with methodIdx := rm.2 }
  if rm.1 then (ConceptType.method, st1)
  else
    let rma := regexTestG (materialKeywords.map String.toList) phrase st1.materialIdx
    let st2 := { st1 with materialIdx := rma.2 }
    if rma.1 then (ConceptType.material, st2)
    else
      let rt := regexTestG (theoryKeywords.map String.toList) phrase st2.theoryIdx
      let st3 := { st2 with theoryIdx := rt.2 }
      if rt.1 then (ConceptType.theory, st3)
      else
        let rp := regexTestG (phenomenonKeywords.map String.toList) phrase st3.phenomenonIdx
        let st4 := { st3 with phenomenonIdx := rp.2 }
        if rp.1 then (ConceptType.phenomenon, st4)
        else (ConceptType.concept, st4)

/-- Classification as the specification words it (stateless): the phrase is
`method` if it contains a method keyword as a whole word, otherwise
`material`, `theory`, `phenomenon` in that priority order, else `concept`.
This is the spec-side definition used to compare against the source's
stateful `classifyConceptType`. -/
def specClassifyConceptType (phrase : String) : ConceptType :=
  let cs := phrase.toList
  if (regexTestG (methodKeywords.map String.toList) cs 0).1 then ConceptType.method
  else if (regexTestG (materialKeywords.map String.toList) cs 0).1 then ConceptType.material
  else if (regexTestG (theoryKeywords.map String.toList) cs 0).1 then ConceptType.theory
  else if (regexTestG (phenomenonKeywords.map String.toList) cs 0).1 then ConceptType.phenomenon
  else ConceptType.concept

/-! ## Concept identification and corpus-level aggregation -/

/-- Whitespace-run collapse of
`phrase.replace(/\s+/g, '_')` (fuelled scanner). -/
def collapseWsAux : ℕ → List Char → List Char
  | 0, _ => []
  | _, [] => []
  | fuel+1, c :: rest =>
    if isWs c then '_' :: collapseWsAux fuel (rest.dropWhile isWs)
    else c :: collapseWsAux fuel rest

/-- Characters kept by `.replace(/[^a-z0-9_]/g, '')`. -/
def isIdChar (c : Char) : Bool := isLowerAlpha c || isDigitCh c || c = '_'

/-- Source `GraphBuilder.normalizeConceptId`: lowercase, collapse
whitespace runs to `_`, then strip everything outside `[a-z0-9_]`. -/
def normalizeConceptId (phrase : String) : String :=
  String.mk (((collapseWsAux (phrase.length + 1) (toLowerStr phrase).toList)).filter isIdChar)

/-- Source `GraphBuilder.identifyConcepts`: tokenize the lowercased text,
build bigram/trigram phrases, count in-paper frequency, keep phrases with
frequency at least 2 and character length greater than 5, and classify the
survivors in `phraseFreq` iteration order while threading the shared
stateful regex `lastIndex`es.  `classifyFold` is one step of that loop:
classify a surviving phrase and emit its `ConceptNode` candidate. -/
def classifyFold (paperId : String) (acc : List ConceptNode × RegexState)
    (e : String × ℕ) : List ConceptNode × RegexState :=
  let r := classifyConceptType e.1.toList acc.2
  (acc.1 ++ [{ id := normalizeConceptId e.1, label := e.1, type := r.1,
               papers := [paperId], frequency := e.2 }], r.2)

def identifyConcepts (text : String) (paperId : String) : List ConceptNode :=
  let words := tokenize (toLowerStr text)
  let phrases := buildPhrases words
  let phraseFreq := countPhrases phrases
  let survivors := phraseFreq.filter (fun e => decide (2 ≤ e.2) && decide (5 < e.1.length))
  (survivors.foldl (classifyFold paperId) ([], initRegexState)).1

/-- Text assembled by `extractConcepts` for one paper:
`` `${paper.title} ${paper.abstract} ${paper.keywords?.join(' ') || ''}` ``. -/
def paperText (p : Paper) : String :=
  p.title ++ " " ++ p.abstract ++ " " ++ String.intercalate " " p.keywords

/-- Merge step of `extractConcepts`: if the concept id is new, insert the
candidate; otherwise push the paper id onto the existing node's `papers`
and increment its `frequency` by one. -/
def addConcept (m : List (String × ConceptNode)) (pid : String) (c : ConceptNode) :
    List (String × ConceptNode) :=
  if (alookup c.id m).isSome then
    m.map (fun e =>
      if e.1 = c.id then
        (e.1, { e.2 with papers := e.2.papers ++ [pid], frequency := e.2.frequency + 1 })
      else e)
  else m ++ [(c.id, c)]

/-- Source `GraphBuilder.extractConcepts`: fold `identifyConcepts` over the
papers, aggregating candidates into the corpus-level concept `Map`
(insertion-ordered association list). -/
def extractConcepts (papers : List Paper) : List (String × ConceptNode) :=
  papers.foldl
    (fun m p => (identifyConcepts (paperText p) p.id).foldl (fun m c => addConcept m p.id c) m)
    []

/-! ## Co-occurrence relationship building (`GraphBuilder.buildRelationships`) -/

/-- Ordered pairs produced by the nested `i < j` loop over a paper's
concept-id list. -/
def allPairs : List String → List (String × String)
  | [] => []
  | x :: xs => xs.map (fun y => (x, y)) ++ allPairs xs

/-- One increment of the nested co-occurrence `Map`
(`targetMap.set(target, (targetMap.get(target) || 0) + 1)`). -/
def bumpPair (m : List (String × List (String × ℕ))) (s t : String) :
    List (String × List (String × ℕ)) :=
  if (alookup s m).isSome then
    m.map (fun e => if e.1 = s then (e.1, bumpCount e.2 t) else e)
  else m ++ [(s, [(t, 1)])]

/-- The concept ids of one paper, in concept-`Map` iteration order
(`Array.from(concepts.values()).filter(c => c.papers.includes(paper.id)).map(c => c.id)`). -/
def paperConceptIds (concepts : List (String × ConceptNode)) (pid : String) : List String :=
  ((concepts.map (fun e => e.2)).filter (fun c => c.papers.contains pid)).map (fun c => c.id)

/-- The full co-occurrence count map accumulated over the builder's paper
store. -/
def cooccurrenceMap (store : List Paper) (concepts : List (String × ConceptNode)) :
    List (String × List (String × ℕ)) :=
  store.foldl
    (fun m p => (allPairs (paperConceptIds concepts p.id)).foldl (fun m q => bumpPair m q.1 q.2) m)
    []

/-- The significance guard `weight > 0.1` where
`weight = count / min(freqA, freqB)` is a JS float division: when the
divisor is 0 and the count is positive, JS yields `Infinity`, which passes
the test (and `0/0` is `NaN`, which fails it); for a positive divisor the
comparison is the exact rational one. -/
def weightGuard (count mn : ℕ) : Bool :=
  if mn = 0 then count != 0
  else decide ((1 : ℚ)/10 < (count : ℚ) / (mn : ℚ))

/-- The `evidence` array of an emitted edge: ids of the store's papers
contained in both endpoints' `papers` lists. -/
def edgeEvidence (store : List Paper) (sc tc : ConceptNode) : List String :=
  (store.filter (fun p => sc.papers.contains p.id && tc.papers.contains p.id)).map
    (fun p => p.id)

/-- Source `GraphBuilder.buildRelationships`: accumulate pairwise
co-occurrence counts over the paper store, then emit one edge per counted
pair whose normalized weight passes the `> 0.1` guard, with
`weight = count / min(freq)` and `confidence = count / max(freq)`.
The stored `weight`/`confidence` fields are the ℚ divisions (total: a zero
divisor gives 0 in ℚ where JS would store `Infinity`/`NaN`; the emission
guard `weightGuard` carries the JS zero-divisor semantics explicitly).
`emitEdgesForSource` is the inner loop over one source's `targets` map. -/
def emitEdgesForSource (store : List Paper) (concepts : List (String × ConceptNode))
    (src : String) (sc : ConceptNode) (targets : List (String × ℕ))
    (acc : List ConceptEdge) : List ConceptEdge :=
  targets.foldl
    (fun acc2 tn =>
      match alookup tn.1 concepts with
      | none => acc2
      | some tc =>
        let mn := min sc.frequency tc.frequency
        let mx := max sc.frequency tc.frequency
        if weightGuard tn.2 mn then
          acc2 ++ [{ source := src, target := tn.1, type := "relates_to",
                     weight := (tn.2 : ℚ) / (mn : ℚ),
                     confidence := (tn.2 : ℚ) / (mx : ℚ),
                     evidence := edgeEvidence store sc tc }]
        else acc2)
    acc

/-- Source `GraphBuilder.buildRelationships`: the outer loop over the
co-occurrence map, emitting the weighted edges of each counted source
(see `emitEdgesForSource`). -/
def buildRelationships (store : List Paper) (concepts : List (String × ConceptNode)) :
    List ConceptEdge :=
  (cooccurrenceMap store concepts).foldl
    (fun acc st =>
      match alookup st.1 concepts with
      | none => acc
      | some sc => emitEdgesForSource store concepts st.1 sc st.2 acc)
    []

/-! ## The knowledge graph and the reasoner state -/

/-- Directed graphology graph (`multi: false`): insertion-ordered node and
edge attribute lists, nodes keyed by id and edges by (source, target). -/
structure KGraph where
  nodes : List (String × ConceptNode)
  edges : List ((String × String) × ConceptEdge)
deriving DecidableEq, Repr

/-- Placeholder attributes used where graphology would throw on a missing
node; all claims evaluate node lookups only at present nodes. -/
def defaultNode : ConceptNode :=
  { id := "", label := "", type := ConceptType.concept, papers := [], frequency := 0 }

/-- Placeholder attributes used where graphology would throw on a missing
edge; all claims evaluate edge lookups only at present edges. -/
def defaultEdge : ConceptEdge :=
  { source := "", target := "", type := "relates_to", weight := 0, confidence := 0,
    evidence := [] }

/-- graphology `getNodeAttributes`. -/
def getNodeAttributes (g : KGraph) (id : String) : ConceptNode :=
  (alookup id g.nodes).getD defaultNode

/-- graphology `getEdgeAttributes(source, target)` on a directed graph. -/
def getEdgeAttributes (g : KGraph) (s t : String) : ConceptEdge :=
  (alookup (s, t) g.edges).getD defaultEdge

/-- graphology `outNeighbors`: targets of the out-edges of `v`, in edge
insertion order. -/
def outNeighbors (g : KGraph) (v : String) : List String :=
  (g.edges.filter (fun e => e.1.1 = v)).map (fun e => e.1.2)

/-- Whether a node id is present in the graph. -/
def hasNode (g : KGraph) (v : String) : Bool := (alookup v g.nodes).isSome

/-- Source `GraphReasoner` instance state: the graph plus the two optional
analysis maps (`communities`, `centrality`), which are `undefined` until
`analyzeGraph` has run. -/
structure GraphReasoner where
  graph : KGraph
  communities : Option (List (String × ℕ))
  centrality : Option (List (String × ℚ))
deriving DecidableEq, Repr

/-- A freshly constructed reasoner (`new GraphReasoner(graph)`): neither
analysis map exists yet. -/
def freshReasoner (g : KGraph) : GraphReasoner :=
  { graph := g, communities := none, centrality := none }

/-- Source `GraphReasoner.getCommunity`:
`this.communities?.get(conceptId)` — `none` models `undefined`. -/
def getCommunity (r : GraphReasoner) (conceptId : String) : Option ℕ :=
  r.communities.bind (fun m => alookup conceptId m)

/-- Source `GraphReasoner.getCommunityConcepts`: the empty list when the
graph has not been analyzed, else the nodes whose community equals
`communityId`, truncated to `limit` (default 20 at the call sites). -/
def getCommunityConcepts (r : GraphReasoner) (communityId : ℕ) (limit : ℕ) :
    List ConceptNode :=
  match r.communities with
  | none => []
  | some m =>
    ((r.graph.nodes.filter (fun e => alookup e.1 m == some communityId)).map
      (fun e => e.2)).take limit

/-! ## Stable descending sort (JS `Array.prototype.sort` with a `b − a`
comparator; JS sort is stable, so ties keep their original order) -/

/-- Insert an element into a descending-sorted list, after every element
whose key is greater than or equal to its own key (stability). -/
def insertDescBy {α β : Type} [LinearOrder β] (key : α → β) (x : α) :
    List α → List α
  | [] => [x]
  | y :: ys => if key y < key x then x :: y :: ys else y :: insertDescBy key x ys

/-- Stable sort by descending key, modelling
`arr.sort((a, b) => key(b) - key(a))`. -/
def sortDescBy {α β : Type} [LinearOrder β] (key : α → β) (l : List α) : List α :=
  l.foldl (fun acc x => insertDescBy key x acc) []

/-- JS `hay.includes(needle)`: the needle occurs as a contiguous substring
at some position (the empty needle always occurs). -/
def strIncludes (hay needle : String) : Bool :=
  strIncludesList needle.toList hay.toList
where
  strIncludesList (needle : List Char) : List Char → Bool
    | [] => needle.isPrefixOf []
    | c :: t => needle.isPrefixOf (c :: t) || strIncludesList needle t

/-- Source `GraphReasoner.searchConcepts`: keep the nodes whose lowercased
label contains some lowercased keyword as a substring (JS
`String.prototype.includes`), then sort by descending frequency. -/
def searchConcepts (r : GraphReasoner) (keywords : List String) : List ConceptNode :=
  let keywordLower := keywords.map toLowerStr
  let results := (r.graph.nodes.map (fun e => e.2)).filter
    (fun n => keywordLower.any (fun k => strIncludes (toLowerStr n.label) k))
  sortDescBy (fun n => n.frequency) results

/-- Source `GraphReasoner.findBridgeConcepts` after the centrality map has
been computed: sort the map entries by descending centrality (stable, no
further tie-break), take the first `topN`, and resolve node attributes.
The `!this.centrality` branch re-runs `analyzeGraph`, whose betweenness
computation is delegated to the external graphology-metrics library and is
outside this embedding; the claims quantify over already-computed
centrality maps. -/
def findBridgeConcepts (r : GraphReasoner) (topN : ℕ) : List ConceptNode :=
  match r.centrality with
  | none => []
  | some cent =>
    ((sortDescBy (fun e => e.2) cent).take topN).map (fun e => getNodeAttributes r.graph e.1)

/-! ## Path sampling (`GraphReasoner.findPaths` and helpers) -/

/-- The candidate index `Math.floor(Math.random() * candidates.length)`.
Because `Math.random()` lies in `[0,1)` the floor is a valid index; the
`min` clamp makes the function total on arbitrary rational inputs. -/
def floorIndex (r : ℚ) (len : ℕ) : ℕ :=
  min (Int.toNat (Rat.floor (r * (len : ℚ)))) (len - 1)

/-- Cumulative-weight draw of `selectNextNode`: subtract each score from
the random value and return the first candidate at which it reaches zero
or below, falling back to the last candidate. -/
def pickWeighted (fallback : String) : List (String × ℚ) → ℚ → String
  | [], _ => fallback
  | cs :: rest, random =>
    if random - cs.2 ≤ 0 then cs.1 else pickWeighted fallback rest (random - cs.2)

/-- Source `GraphReasoner.selectNextNode`: uniform random choice when no
community data exists; otherwise score each candidate by
`edge.weight || 0.5` times a 2.0 cross-community bonus and draw by
cumulative weight.  Consumes exactly one random value; returns the choice
and the advanced stream index. -/
def selectNextNode (r : GraphReasoner) (rng : ℕ → ℚ) (k : ℕ) (currentId : String)
    (candidates : List String) : String × ℕ :=
  match r.communities with
  | none => ((candidates.getD (floorIndex (rng k) candidates.length) ""), k + 1)
  | some comm =>
    let currentCommunity := alookup currentId comm
    let scores := candidates.map (fun nodeId =>
      let nodeCommunity := alookup nodeId comm
      let edge := getEdgeAttributes r.graph currentId nodeId
      let baseScore : ℚ := if edge.weight = 0 then 1/2 else edge.weight
      let communityBonus : ℚ := if nodeCommunity ≠ currentCommunity then 2 else 1
      baseScore * communityBonus)
    let totalScore := scores.sum
    let random := rng k * totalScore
    (pickWeighted (candidates.getLastD "") (candidates.zip scores) random, k + 1)

/-- The step loop of `randomWalk` (`for i = 0; i < maxLength - 1; i++`):
extend the path by a selected unvisited out-neighbor, stopping early when
none remains. -/
def randomWalkAux (r : GraphReasoner) (rng : ℕ → ℚ) :
    ℕ → ℕ → String → List String → List String → (List String × ℕ)
  | 0, k, _, _, path => (path, k)
  | steps+1, k, current, visited, path =>
    let neighbors := outNeighbors r.graph current
    let unvisited := neighbors.filter (fun n => !visited.contains n)
    if unvisited.isEmpty then (path, k)
    else
      let nx := selectNextNode r rng k current unvisited
      randomWalkAux r rng steps nx.2 nx.1 (visited ++ [nx.1]) (path ++ [nx.1])

/-- Source `GraphReasoner.randomWalk`: start at `startId` and take up to
`maxLength - 1` biased steps. -/
def randomWalk (r : GraphReasoner) (rng : ℕ → ℚ) (k : ℕ) (startId : String)
    (maxLength : ℕ) : List String × ℕ :=
  randomWalkAux r rng (maxLength - 1) k startId [startId] [startId]

/-- The deduplication key `path.map(n => n).join('->')`. -/
def pathKey (walk : List String) : String := String.intercalate "->" walk

/-- The retry loop of `sampleDiversePaths`: run random walks while fewer
than `maxPaths` walks are collected and attempts remain (the fuel is the
attempt budget `maxPaths * 10`); skip a walk whose key was already seen,
record the key, and drop walks shorter than 2 nodes.  Returns the
collected walks in discovery order together with the number of attempts
performed. -/
def sampleDiversePathsAux (r : GraphReasoner) (rng : ℕ → ℚ) (sourceId : String)
    (maxLength maxPaths : ℕ) :
    ℕ → ℕ → List (List String) → List String → (List (List String) × ℕ)
  | 0, _, acc, _ => (acc, 0)
  | fuel+1, k, acc, visitedKeys =>
    if acc.length < maxPaths then
      let w := randomWalk r rng k sourceId maxLength
      let key := pathKey w.1
      if visitedKeys.contains key then
        let res := sampleDiversePathsAux r rng sourceId maxLength maxPaths fuel w.2 acc visitedKeys
        (res.1, res.2 + 1)
      else if w.1.length < 2 then
        let res := sampleDiversePathsAux r rng sourceId maxLength maxPaths fuel w.2 acc
          (visitedKeys ++ [key])
        (res.1, res.2 + 1)
      else
        let res := sampleDiversePathsAux r rng sourceId maxLength maxPaths fuel w.2
          (acc ++ [w.1]) (visitedKeys ++ [key])
        (res.1, res.2 + 1)
    else (acc, 0)

/-- The raw walks collected by `sampleDiversePaths`. -/
def sampleDiverseWalks (r : GraphReasoner) (rng : ℕ → ℚ) (sourceId : String)
    (maxLength maxPaths : ℕ) : List (List String) :=
  (sampleDiversePathsAux r rng sourceId maxLength maxPaths (maxPaths * 10) 0 [] []).1

/-- Source `GraphReasoner.constructGraphPath`: resolve node attributes,
resolve the edge between each consecutive pair, and sum the edge weights;
`novelty` is filled in later. -/
def constructGraphPath (g : KGraph) (nodeIds : List String) : GraphPath :=
  let nodes := nodeIds.map (getNodeAttributes g)
  let edges := (nodeIds.zip nodeIds.tail).map (fun q => getEdgeAttributes g q.1 q.2)
  { nodes := nodes, edges := edges, length := nodeIds.length,
    totalWeight := (edges.map (fun e => e.weight)).sum, novelty := 0 }

/-- Source `GraphReasoner.sampleDiversePaths`: the collected walks turned
into `GraphPath`s. -/
def sampleDiversePaths (r : GraphReasoner) (rng : ℕ → ℚ) (sourceId : String)
    (maxLength maxPaths : ℕ) : List GraphPath :=
  (sampleDiverseWalks r rng sourceId maxLength maxPaths).map (constructGraphPath r.graph)

/-! ## Targeted shortest-path mode -/

/-- Modelled from the spec: the `bidirectional` shortest-path routine comes
from the external graphology-shortest-path library, which is not part of
this repository's sources.  Spec §4.4: with both a source and a target id,
"compute one shortest path between them using bidirectional search over
edge adjacency (path exists or sampler returns an empty result)".  A
breadth-first search realises a shortest path over the out-edge adjacency;
the shortest path from a node to itself is the trivial one-node path, and
a missing endpoint yields no path (the library throws there).  The queue
holds reversed partial paths; `fuel` bounds the pops (each graph node is
enqueued at most once). -/
def bfsAux (g : KGraph) (target : String) :
    ℕ → List (List String) → List String → Option (List String)
  | 0, _, _ => none
  | fuel+1, queue, visited =>
    match queue with
    | [] => none
    | p :: rest =>
      match p with
      | [] => none
      | cur :: _ =>
        if cur = target then some p.reverse
        else
          let nbrs := (outNeighbors g cur).filter (fun n => !visited.contains n)
          bfsAux g target fuel (rest ++ nbrs.map (fun n => n :: p)) (visited ++ nbrs)

/-- Modelled from the spec (see `bfsAux`): one shortest path from `s` to
`t`, `none` when no connection exists. -/
def bidirectionalShortestPath (g : KGraph) (s t : String) : Option (List String) :=
  if hasNode g s && hasNode g t then
    if s = t then some [s]
    else bfsAux g t (g.nodes.length + g.edges.length + 2) [[s]] [s]
  else none

/-! ## Novelty scoring (`GraphReasoner.calculateNoveltyScore`) -/

/-- Factor 1: fraction of consecutive node pairs whose communities differ
(a missing community is `undefined`, distinct from every number). -/
def crossCommunityRatio (comm : List (String × ℕ)) (p : GraphPath) : ℚ :=
  let pairs := p.nodes.zip p.nodes.tail
  ((pairs.filter (fun q => !(alookup q.1.id comm == alookup q.2.id comm))).length : ℚ) /
    ((p.nodes.length : ℚ) - 1)

/-- Factor 2: `1 - min(totalWeight / edgeCount, 1.0)`. -/
def edgeWeakness (p : GraphPath) : ℚ :=
  1 - min (p.totalWeight / (p.edges.length : ℚ)) 1

/-- Factor 3: `min(path.length / 6, 1.0)`. -/
def lengthScoreOf (p : GraphPath) : ℚ := min ((p.length : ℚ) / 6) 1

/-- Factor 4: `1 - min(avgCentrality * 10, 1.0)`, with the average
centrality defaulting to 0.5 when no centrality map exists and a missing
entry counting as 0. -/
def bridgeAvoidance (cent : Option (List (String × ℚ))) (p : GraphPath) : ℚ :=
  let avgCentrality : ℚ :=
    match cent with
    | some c => ((p.nodes.map (fun n => (alookup n.id c).getD 0)).sum) / ((p.nodes.length : ℚ))
    | none => 1/2
  1 - min (avgCentrality * 10) 1

/-- Source `GraphReasoner.calculateNoveltyScore`: 0.5 when no community
data exists, otherwise the weighted sum of the four factors clamped to
`[0,1]` by `Math.min(Math.max(score, 0), 1)`.  (For a one-node path the JS
code divides 0 by 0, producing NaN; claims about the score are therefore
stated for paths with at least one edge, where the ℚ divisions agree with
the float ones.) -/
def calculateNoveltyScore (r : GraphReasoner) (p : GraphPath) : ℚ :=
  match r.communities with
  | none => 1/2
  | some comm =>
    let score := crossCommunityRatio comm p * (4/10) + edgeWeakness p * (3/10)
      + lengthScoreOf p * (2/10) + bridgeAvoidance r.centrality p * (1/10)
    min (max score 0) 1

/-- JS `params?.field || default`: `undefined` and 0 are both falsy. -/
def defaultOr (o : Option ℕ) (d : ℕ) : ℕ :=
  match o with
  | some n => if n = 0 then d else n
  | none => d

/-- The `paths` local of `findPaths` before novelty scoring: one shortest
path in targeted mode (or none), the diverse samples otherwise. -/
def findPathsRaw (r : GraphReasoner) (rng : ℕ → ℚ) (sourceId : String)
    (targetId : Option String) (maxLength maxRes : ℕ) : List GraphPath :=
  match targetId with
  | some t =>
    match bidirectionalShortestPath r.graph sourceId t with
    | some ids => [constructGraphPath r.graph ids]
    | none => []
  | none => sampleDiversePaths r rng sourceId maxLength maxRes

/-- Source `GraphReasoner.findPaths`: targeted shortest-path mode when a
target id is given, otherwise diverse sampling; then score each path's
novelty, sort by descending novelty (stable), and truncate to
`maxResults`. -/
def findPaths (r : GraphReasoner) (rng : ℕ → ℚ) (sourceId : String)
    (targetId : Option String) (pathLength maxResults : Option ℕ) : List GraphPath :=
  let maxLength := defaultOr pathLength 4
  let maxRes := defaultOr maxResults 10
  let scored := (findPathsRaw r rng sourceId targetId maxLength maxRes).map
    (fun p => { p with novelty := calculateNoveltyScore r p })
  (sortDescBy (fun p => p.novelty) scored).take maxRes

/-! ## Concrete fixtures used by the claims -/

/-- Corpus paper A of the 2-paper scenario: the phrase "neural network"
occurs exactly twice in its assembled text. -/
def fixPaperA : Paper := { id := "A", title := "neural network", abstract := "neural network" }

/-- Corpus paper B of the 2-paper scenario, identical text to paper A. -/
def fixPaperB : Paper := { id := "B", title := "neural network", abstract := "neural network" }

/-- Paper whose surviving phrases exercise the shared stateful regex:
survivors in order are "method alpha", "method alpha method",
"alpha method", "method beta". -/
def fixPaperC4 : Paper :=
  { id := "p1", title := "method alpha method alpha method beta method beta", abstract := "" }

/-- Paper for the edge-bounds witness: five surviving phrases, all
pairwise co-occurring in the single paper. -/
def fixPaperW : Paper :=
  { id := "p1", title := "neural network protein folding",
    abstract := "neural network protein folding" }

/-- One-paper store for counterexamples. -/
def fixStoreZ : List Paper := [{ id := "p1", title := "", abstract := "" }]

/-- Concept with frequency 0 supported by paper p1 (an adversarial input
map, not produced by extraction). -/
def fixZeroA : ConceptNode :=
  { id := "a", label := "a", type := ConceptType.concept, papers := ["p1"], frequency := 0 }

/-- Second frequency-0 concept supported by the same paper. -/
def fixZeroB : ConceptNode :=
  { id := "b", label := "b", type := ConceptType.concept, papers := ["p1"], frequency := 0 }

/-- Adversarial concept map in which two co-occurring concepts both have
frequency 0. -/
def fixZeroConcepts : List (String × ConceptNode) := [("a", fixZeroA), ("b", fixZeroB)]

/-- Graph node `a` of the two-node fixture graph. -/
def fixNodeA : ConceptNode :=
  { id := "a", label := "node a", type := ConceptType.concept, papers := ["p1"], frequency := 2 }

/-- Graph node `b` of the two-node fixture graph. -/
def fixNodeB : ConceptNode :=
  { id := "b", label := "node b", type := ConceptType.concept, papers := ["p1"], frequency := 3 }

/-- The edge `a → b` of the two-node fixture graph. -/
def fixEdgeAB : ConceptEdge :=
  { source := "a", target := "b", type := "relates_to", weight := 1/2, confidence := 1/2,
    evidence := ["p1"] }

/-- Two-node fixture graph with the single edge `a → b`. -/
def fixGraphAB : KGraph :=
  { nodes := [("a", fixNodeA), ("b", fixNodeB)], edges := [(("a", "b"), fixEdgeAB)] }

/-- Hub node `s` of the star fixture graph. -/
def fixNodeS : ConceptNode :=
  { id := "s", label := "node s", type := ConceptType.concept, papers := [], frequency := 1 }

/-- Edge `s → a` of the star fixture graph. -/
def fixEdgeSA : ConceptEdge :=
  { source := "s", target := "a", type := "relates_to", weight := 1/2, confidence := 1/2,
    evidence := [] }

/-- Edge `s → b` of the star fixture graph. -/
def fixEdgeSB : ConceptEdge :=
  { source := "s", target := "b", type := "relates_to", weight := 1/2, confidence := 1/2,
    evidence := [] }

/-- Star fixture graph: `s` points at `a` and `b`, which are sinks, so
exactly two distinct random walks start at `s`. -/
def fixGraphStar : KGraph :=
  { nodes := [("s", fixNodeS), ("a", fixNodeA), ("b", fixNodeB)],
    edges := [(("s", "a"), fixEdgeSA), (("s", "b"), fixEdgeSB)] }

/-- Random stream whose first two draws pick neighbor 0 and then
neighbor 1, realising both distinct walks of the star graph. -/
def rngStar : ℕ → ℚ := fun n => if n = 1 then 1/2 else 0

/-- Centrality map with a tie: both nodes score 1, inserted `a` first. -/
def fixCentAB : List (String × ℚ) := [("a", 1), ("b", 1)]

/-- Node `a` with frequency 1 for the tie-break counterexample. -/
def fixFreqA : ConceptNode :=
  { id := "a", label := "a", type := ConceptType.concept, papers := [], frequency := 1 }

/-- Node `b` with frequency 5 for the tie-break counterexample. -/
def fixFreqB : ConceptNode :=
  { id := "b", label := "b", type := ConceptType.concept, papers := [], frequency := 5 }

/-- Reasoner with an analyzed centrality map holding the tie. -/
def fixReasonerCent : GraphReasoner :=
  { graph := { nodes := [("a", fixFreqA), ("b", fixFreqB)], edges := [] },
    communities := none, centrality := some fixCentAB }

/-! ## Association-list lemmas -/

/-- Updating the values at key `b` (keys untouched) commutes with lookup. -/
theorem alookup_map_cond {bt : Type} (f : bt → bt) (b : String) :
    ∀ (m : List (String × bt)) (t : String),
    alookup t (m.map (fun e => if e.1 = b then (e.1, f e.2) else e))
      = if t = b then (alookup t m).map f else alookup t m := by
  intro m t
  induction m with
  | nil => by_cases ht : t = b <;> simp [alookup, ht]
  | cons hd tl ih =>
    obtain ⟨k, v⟩ := hd
    by_cases hk : k = b
    · subst hk
      by_cases ht : t = k
      · subst ht; simp [alookup]
      · have hkt : ¬ (k = t) := fun h => ht h.symm
        simp [alookup, hkt, ih, ht]
    · by_cases ht : t = k
      · subst ht
        simp [alookup, hk]
      · have hkt : ¬ (k = t) := fun h => ht h.symm
        simp [alookup, hk, hkt, ih]

/-- Lookup in an extended association list. -/
theorem alookup_append {bt : Type} :
    ∀ (m l : List (String × bt)) (t : String),
    alookup t (m ++ l) = match alookup t m with
      | some w => some w
      | none => alookup t l := by
  intro m l t
  induction m with
  | nil => simp [alookup]
  | cons hd tl ih =>
    by_cases ht : hd.1 = t
    · simp [alookup, ht]
    · simp [alookup, ht, ih]

/-- A successful lookup produces a member. -/
theorem alookup_mem {bt : Type} :
    ∀ {m : List (String × bt)} {k : String} {v : bt},
    alookup k m = some v → (k, v) ∈ m := by
  intro m
  induction m with
  | nil => intro k v h; simp [alookup] at h
  | cons hd tl ih =>
    intro k v h
    by_cases hk : hd.1 = k
    · rw [alookup, if_pos hk] at h
      obtain ⟨k1, v1⟩ := hd
      simp only [Option.some.injEq] at h
      simp only at hk
      rw [← hk, ← h]
      exact List.mem_cons_self _ _
    · rw [alookup, if_neg hk] at h
      exact List.mem_cons_of_mem _ (ih h)

/-- A lookup succeeds exactly when the key occurs. -/
theorem alookup_isSome_iff {bt : Type} :
    ∀ (m : List (String × bt)) (k : String),
    (alookup k m).isSome = true ↔ k ∈ m.map Prod.fst := by
  intro m k
  induction m with
  | nil => simp [alookup]
  | cons hd tl ih =>
    by_cases hk : hd.1 = k
    · simp [alookup, hk]
    · have hkh : ¬ (k = hd.1) := fun h => hk h.symm
      simp [alookup, hk, ih, hkh]

/-- With distinct keys, membership determines the lookup. -/
theorem alookup_of_mem_nodup {bt : Type} :
    ∀ {m : List (String × bt)} {k : String} {v : bt},
    (m.map Prod.fst).Nodup → (k, v) ∈ m → alookup k m = some v := by
  intro m
  induction m with
  | nil => intro k v _ h; simp at h
  | cons hd tl ih =>
    intro k v hnd hmem
    simp only [List.map_cons, List.nodup_cons] at hnd
    rcases List.mem_cons.mp hmem with heq | htl
    · subst heq; simp [alookup]
    · have hk : ¬ (hd.1 = k) := by
        intro hkk
        exact hnd.1 (hkk ▸ (List.mem_map.mpr ⟨(k, v), htl, rfl⟩))
      rw [alookup, if_neg hk]
      exact ih hnd.2 htl

/-- Conditional value maps preserve the key list. -/
theorem keys_map_cond {bt : Type} (f : bt → bt) (b : String) (m : List (String × bt)) :
    (m.map (fun e => if e.1 = b then (e.1, f e.2) else e)).map Prod.fst = m.map Prod.fst := by
  induction m with
  | nil => rfl
  | cons hd tl ih =>
    by_cases hk : hd.1 = b <;> simp [hk, ih]

/-! ## Stable descending sort lemmas -/

/-- Membership in a descending insertion. -/
theorem mem_insertDescBy {α β : Type} [LinearOrder β] (key : α → β) (x z : α) :
    ∀ (l : List α), z ∈ insertDescBy key x l ↔ z = x ∨ z ∈ l := by
  intro l
  induction l with
  | nil => simp [insertDescBy]
  | cons y ys ih =>
    by_cases h : key y < key x
    · simp [insertDescBy, h]
    · simp only [insertDescBy, if_neg h, List.mem_cons, ih]
      tauto

/-- Descending insertion permutes the cons. -/
theorem insertDescBy_perm {α β : Type} [LinearOrder β] (key : α → β) (x : α) :
    ∀ (l : List α), (insertDescBy key x l).Perm (x :: l) := by
  intro l
  induction l with
  | nil => simp [insertDescBy]
  | cons y ys ih =>
    by_cases h : key y < key x
    · simp [insertDescBy, h]
    · simp only [insertDescBy, if_neg h]
      exact (List.Perm.cons y ih).trans (List.Perm.swap x y ys)

/-- The stable sort permutes its input. -/
theorem sortDescBy_perm {α β : Type} [LinearOrder β] (key : α → β) (l : List α) :
    (sortDescBy key l).Perm l := by
  suffices h : ∀ (l acc : List α), ((l.foldl (fun a x => insertDescBy key x a) acc)).Perm (acc ++ l) by
    simpa using h l []
  intro l
  induction l with
  | nil => intro acc; simp
  | cons x xs ih =>
    intro acc
    refine ((ih (insertDescBy key x acc)).trans ?_)
    refine (List.Perm.append_right xs (insertDescBy_perm key x acc)).trans ?_
    have : (x :: acc) ++ xs = x :: (acc ++ xs) := rfl
    rw [this]
    exact (List.perm_middle).symm

/-- Descending insertion preserves descending sortedness. -/
theorem insertDescBy_sorted {α β : Type} [LinearOrder β] (key : α → β) (x : α) :
    ∀ (l : List α), l.Pairwise (fun a b => key b ≤ key a) →
    (insertDescBy key x l).Pairwise (fun a b => key b ≤ key a) := by
  intro l
  induction l with
  | nil => intro _; simp [insertDescBy]
  | cons y ys ih =>
    intro hs
    rw [List.pairwise_cons] at hs
    by_cases h : key y < key x
    · simp only [insertDescBy, if_pos h]
      refine List.Pairwise.cons ?_ (List.Pairwise.cons hs.1 hs.2)
      intro z hz
      rcases List.mem_cons.mp hz with rfl | hz
      · exact le_of_lt h
      · exact le_trans (hs.1 z hz) (le_of_lt h)
    · simp only [insertDescBy, if_neg h]
      refine List.Pairwise.cons ?_ (ih hs.2)
      intro z hz
      rcases (mem_insertDescBy key x z ys).mp hz with rfl | hz
      · exact le_of_not_lt h
      · exact hs.1 z hz

/-- The stable sort produces a descending list. -/
theorem sortDescBy_sorted {α β : Type} [LinearOrder β] (key : α → β) (l : List α) :
    (sortDescBy key l).Pairwise (fun a b => key b ≤ key a) := by
  suffices h : ∀ (l acc : List α), acc.Pairwise (fun a b => key b ≤ key a) →
      ((l.foldl (fun a x => insertDescBy key x a) acc)).Pairwise (fun a b => key b ≤ key a) by
    exact h l [] (by simp)
  intro l
  induction l with
  | nil => intro acc h; simpa using h
  | cons x xs ih => intro acc h; exact ih _ (insertDescBy_sorted key x acc h)

/-- Stability at the level of one insertion: in a sorted list the new
element lands after every element of equal key. -/
theorem insertDescBy_filter {α β : Type} [LinearOrder β] [DecidableEq α]
    (key : α → β) (x : α) (v : β) :
    ∀ (l : List α), l.Pairwise (fun a b => key b ≤ key a) →
    (insertDescBy key x l).filter (fun e => decide (key e = v))
      = if key x = v then l.filter (fun e => decide (key e = v)) ++ [x]
        else l.filter (fun e => decide (key e = v)) := by
  intro l
  induction l with
  | nil => intro _; by_cases hx : key x = v <;> simp [insertDescBy, hx]
  | cons y ys ih =>
    intro hs
    rw [List.pairwise_cons] at hs
    by_cases h : key y < key x
    · simp only [insertDescBy, if_pos h]
      by_cases hx : key x = v
      · have hy : ¬ (key y = v) := by
          intro hyv; rw [hyv] at h; rw [hx] at h; exact lt_irrefl v h
        have hys : ys.filter (fun e => decide (key e = v)) = [] := by
          rw [List.filter_eq_nil_iff]
          intro z hz
          have := hs.1 z hz
          simp only [decide_eq_true_eq]
          intro hzv
          rw [hzv, ← hx] at this
          exact absurd (lt_of_lt_of_le h this) (lt_irrefl _)
        simp [hx, hy, hys]
      · simp [hx, List.filter_cons]
    · simp only [insertDescBy, if_neg h]
      rw [List.filter_cons, List.filter_cons]
      by_cases hy : key y = v
      · rw [ih hs.2]
        by_cases hx : key x = v <;> simp [hx, hy]
      · rw [ih hs.2]
        by_cases hx : key x = v <;> simp [hx, hy]

/-- Stability of the whole sort: elements of any fixed key keep their
original relative order (JS `sort` is stable). -/
theorem sortDescBy_filter {α β : Type} [LinearOrder β] [DecidableEq α]
    (key : α → β) (l : List α) (v : β) :
    (sortDescBy key l).filter (fun e => decide (key e = v))
      = l.filter (fun e => decide (key e = v)) := by
  suffices h : ∀ (l acc : List α), acc.Pairwise (fun a b => key b ≤ key a) →
      ((l.foldl (fun a x => insertDescBy key x a) acc)).filter (fun e => decide (key e = v))
        = acc.filter (fun e => decide (key e = v)) ++ l.filter (fun e => decide (key e = v)) by
    simpa using h l [] (by simp)
  intro l
  induction l with
  | nil => intro acc _; simp
  | cons x xs ih =>
    intro acc hacc
    have hstep := insertDescBy_filter key x v acc hacc
    rw [List.foldl_cons, ih _ (insertDescBy_sorted key x acc hacc), hstep, List.filter_cons]
    by_cases hx : key x = v <;> simp [hx]

/-! ## Small supporting lemmas for the claims -/

/-- An empty needle is a substring of every string (JS
`hay.includes("") === true`). -/
theorem strIncludes_of_needle_nil (hay needle : String) (h : needle.toList = []) :
    strIncludes hay needle = true := by
  unfold strIncludes
  rw [h]
  cases hay.toList with
  | nil => rfl
  | cons c t => rfl

/-! ## Claim theorems -/

/-- C1 counterexample: in the 2-paper corpus where each paper contains the
phrase "neural network" exactly twice, the aggregated `neural_network`
concept has frequency 3, not the claimed 4 — `extractConcepts` increments
the running frequency by one per recurring paper instead of adding the new
paper's in-paper phrase count. -/
theorem C1_counterexample :
    (alookup "neural_network" (extractConcepts [fixPaperA, fixPaperB])).map
      ConceptNode.frequency = some 3
    ∧ (alookup "neural_network" (extractConcepts [fixPaperA, fixPaperB])).map
      ConceptNode.frequency ≠ some 4 := by
  constructor
  · decide
  · decide

/-- C1 (amended): when the same concept id recurs for a different paper,
`extractConcepts` appends the paper id to `papers` and increments the
running frequency by exactly one (not by the new paper's in-paper count);
in the 2-paper "neural network" corpus the resulting concept therefore has
`frequency == 3` and `papers == [A, B]`. -/
theorem C1_amended_frequency_increment :
    (∀ (m : List (String × ConceptNode)) (pid : String) (c n : ConceptNode),
      alookup c.id m = some n →
      alookup c.id (addConcept m pid c)
        = some { n with papers := n.papers ++ [pid], frequency := n.frequency + 1 })
    ∧ alookup "neural_network" (extractConcepts [fixPaperA, fixPaperB])
        = some { id := "neural_network", label := "neural network",
                 type := ConceptType.concept, papers := ["A", "B"], frequency := 3 } := by
  constructor
  · intro m pid c n h
    unfold addConcept
    rw [if_pos (by rw [h]; rfl)]
    have hmc := alookup_map_cond
      (fun v : ConceptNode => { v with papers := v.papers ++ [pid], frequency := v.frequency + 1 })
      c.id m c.id
    rw [hmc, if_pos rfl, h]
    rfl
  · decide

/-- C1 witness: the merge step applied at a concrete map and candidate. -/
theorem C1_amended_witness :
    alookup "a" (addConcept [("a", fixNodeA)] "p2" fixNodeA)
      = some { fixNodeA with
                papers := fixNodeA.papers ++ ["p2"],
                frequency := fixNodeA.frequency + 1 } :=
  C1_amended_frequency_increment.1 [("a", fixNodeA)] "p2" fixNodeA fixNodeA (by decide)

/-- C2 counterexample: on a freshly constructed reasoner (no `analyze()`
call) `getCommunity` silently returns `undefined` (`none`) and
`getCommunityConcepts` silently returns the empty list — there is no
thrown error, panic, or error value, so the claimed loud failure does not
happen. -/
theorem C2_counterexample :
    getCommunity (freshReasoner fixGraphAB) "a" = none
    ∧ getCommunityConcepts (freshReasoner fixGraphAB) 0 20 = [] :=
  ⟨rfl, rfl⟩

/-- C2 (amended): querying community information before `analyzeGraph` has
run silently yields the default values — `getCommunity` returns
`undefined` and `getCommunityConcepts` returns the empty list — on every
graph and for every argument. -/
theorem C2_amended_silent_defaults :
    ∀ (g : KGraph) (cid : String) (commId lim : ℕ),
    getCommunity (freshReasoner g) cid = none
    ∧ getCommunityConcepts (freshReasoner g) commId lim = [] := by
  intro g cid commId lim
  exact ⟨rfl, rfl⟩

/-- C3 counterexample: on an adversarial concept map holding two
co-occurring concepts of frequency 0, `buildRelationships` does emit the
edge (in JS the weight `1/0` is `Infinity`, which passes the `> 0.1`
guard), so pairs with `min(freq) == 0` are not skipped. -/
theorem C3_counterexample :
    (buildRelationships fixStoreZ fixZeroConcepts).map (fun e => (e.source, e.target))
      = [("a", "b")]
    ∧ min fixZeroA.frequency fixZeroB.frequency = 0 := by
  constructor
  · decide
  · decide

/-- C4 (code bug): the `patterns` regexes carry the `g` flag and are reused
across `classifyConceptType` calls, so `lastIndex` persists between
phrases; on the failing paper the surviving phrase "alpha method" is
classified `'concept'` although it contains the method keyword — the
spec's stateless classification (`specClassifyConceptType`) says
`'method'`. -/
theorem C4_code_bug_stateful_regex :
    ((identifyConcepts (paperText fixPaperC4) "p1").find?
      (fun c => c.id == "alpha_method")).map ConceptNode.type = some ConceptType.concept
    ∧ specClassifyConceptType "alpha method" = ConceptType.method := by
  constructor
  · decide
  · decide

/-- C5 counterexample: targeted mode with `sourceId == targetId` on a node
present in the graph returns the single-node trivial path, whose `length`
is 1 — violating the claimed `length ≥ 2`. -/
theorem C5_counterexample :
    (findPaths (freshReasoner fixGraphAB) (fun _ => 0) "a" (some "a") none none).map
      (fun p => p.length) = [1] := by
  decide

/-- C7: the novelty score of any path with at least one edge (and the
GraphPath node/edge shape) lies in [0,1]; it is 0.5 when no community data
exists, and otherwise exactly the clamp to [0,1] of the weighted factor
sum 0.4·crossCommunity + 0.3·edgeWeakness + 0.2·lengthScore +
0.1·bridgeAvoidance. -/
theorem C7_novelty_range :
    ∀ (r : GraphReasoner) (p : GraphPath),
    p.nodes.length = p.edges.length + 1 → 1 ≤ p.edges.length →
    (0 ≤ calculateNoveltyScore r p ∧ calculateNoveltyScore r p ≤ 1)
    ∧ (r.communities = none → calculateNoveltyScore r p = 1/2)
    ∧ (∀ comm, r.communities = some comm →
        calculateNoveltyScore r p
          = min (max (crossCommunityRatio comm p * (4/10) + edgeWeakness p * (3/10)
              + lengthScoreOf p * (2/10) + bridgeAvoidance r.centrality p * (1/10)) 0) 1) := by
  intro r p _ _
  cases hc : r.communities with
  | none =>
    refine ⟨?_, fun _ => ?_, fun comm h => ?_⟩
    · simp only [calculateNoveltyScore, hc]
      norm_num
    · simp only [calculateNoveltyScore, hc]
    · cases h
  | some comm0 =>
    refine ⟨?_, fun h => ?_, fun comm h => ?_⟩
    · simp only [calculateNoveltyScore, hc]
      constructor
      · exact le_min (le_max_right _ 0) zero_le_one
      · exact min_le_right _ 1
    · cases h
    · injection h with h
      subst h
      simp only [calculateNoveltyScore, hc]

/-- C7 witness: the single-edge path `a → b` of the fixture graph on an
unanalyzed reasoner. -/
theorem C7_witness :
    0 ≤ calculateNoveltyScore (freshReasoner fixGraphAB)
        (constructGraphPath fixGraphAB ["a", "b"])
    ∧ calculateNoveltyScore (freshReasoner fixGraphAB)
        (constructGraphPath fixGraphAB ["a", "b"]) ≤ 1 :=
  (C7_novelty_range (freshReasoner fixGraphAB) (constructGraphPath fixGraphAB ["a", "b"])
    (by decide) (by decide)).1

/-- C8 counterexample: with the tied centrality map `[(a,1), (b,1)]` and
frequencies `freq(a) = 1 < 5 = freq(b)`, `findBridgeConcepts` returns `a`
before `b` — insertion order, not the claimed higher-frequency
tie-break. -/
theorem C8_counterexample :
    (findBridgeConcepts fixReasonerCent 2).map (fun n => (n.id, n.frequency))
      = [("a", 1), ("b", 5)]
    ∧ alookup "a" fixCentAB = alookup "b" fixCentAB := by
  constructor
  · decide
  · decide

/-- C8 (amended): `findBridgeConcepts` returns the first `topN` entries of
the centrality map sorted by descending score with a stable sort — scores
are nonincreasing along the result, and entries of any tied score keep the
centrality map's insertion order (no frequency or id tie-break). -/
theorem C8_amended_stable_centrality_order :
    ∀ (g : KGraph) (comm : Option (List (String × ℕ))) (cent : List (String × ℚ)) (n : ℕ),
    findBridgeConcepts { graph := g, communities := comm, centrality := some cent } n
      = ((sortDescBy (fun e => e.2) cent).take n).map (fun e => getNodeAttributes g e.1)
    ∧ (sortDescBy (fun e : String × ℚ => e.2) cent).Pairwise (fun x y => y.2 ≤ x.2)
    ∧ ∀ v : ℚ, (sortDescBy (fun e : String × ℚ => e.2) cent).filter (fun e => decide (e.2 = v))
        = cent.filter (fun e => decide (e.2 = v)) := by
  intro g comm cent n
  exact ⟨rfl, sortDescBy_sorted _ cent, fun v => sortDescBy_filter _ cent v⟩

/-- C10: an empty keyword makes `searchConcepts` return every node of the
graph (the empty string is a substring of every lowercased label), sorted
by descending frequency. -/
theorem C10_empty_keyword_matches_all :
    ∀ (r : GraphReasoner) (keywords : List String), "" ∈ keywords →
    searchConcepts r keywords
      = sortDescBy (fun n => n.frequency) (r.graph.nodes.map (fun e => e.2)) := by
  intro r keywords hmem
  have hfilter : (r.graph.nodes.map (fun e => e.2)).filter
      (fun n => (keywords.map toLowerStr).any (fun k => strIncludes (toLowerStr n.label) k))
      = r.graph.nodes.map (fun e => e.2) := by
    apply List.filter_eq_self.mpr
    intro n _
    apply List.any_eq_true.mpr
    refine ⟨toLowerStr "", List.mem_map.mpr ⟨"", hmem, rfl⟩, ?_⟩
    exact strIncludes_of_needle_nil _ _ (by decide)
  simp only [searchConcepts]
  rw [hfilter]

/-- C10 witness: the empty keyword on the star fixture graph. -/
theorem C10_witness :
    searchConcepts (freshReasoner fixGraphStar) [""]
      = sortDescBy (fun n => n.frequency) (fixGraphStar.nodes.map (fun e => e.2)) :=
  C10_empty_keyword_matches_all (freshReasoner fixGraphStar) [""] (by simp)

/-! ## Sampler and shortest-path lemmas -/

/-- Invariants of the retry loop: at most `maxPaths` walks are collected,
collected walks have pairwise-distinct keys all recorded in the visited
set, every collected walk has at least 2 nodes, and the number of attempts
performed is bounded by the remaining fuel. -/
theorem sampleDiversePathsAux_spec (r : GraphReasoner) (rng : ℕ → ℚ) (s : String)
    (mL mP : ℕ) :
    ∀ (fuel k : ℕ) (acc : List (List String)) (keys : List String),
    acc.length ≤ mP →
    (∀ w ∈ acc, pathKey w ∈ keys) →
    ((acc.map pathKey).Nodup) →
    (∀ w ∈ acc, 2 ≤ w.length) →
    (sampleDiversePathsAux r rng s mL mP fuel k acc keys).1.length ≤ mP
    ∧ ((sampleDiversePathsAux r rng s mL mP fuel k acc keys).1.map pathKey).Nodup
    ∧ (∀ w ∈ (sampleDiversePathsAux r rng s mL mP fuel k acc keys).1, 2 ≤ w.length)
    ∧ (∀ w ∈ (sampleDiversePathsAux r rng s mL mP fuel k acc keys).1,
        pathKey w ∈ (sampleDiversePathsAux r rng s mL mP fuel k acc keys).1.map pathKey)
    ∧ (sampleDiversePathsAux r rng s mL mP fuel k acc keys).2 ≤ fuel := by
  intro fuel
  induction fuel with
  | zero =>
    intro k acc keys h1 h2 h3 h4
    exact ⟨h1, h3, h4, fun w hw => List.mem_map.mpr ⟨w, hw, rfl⟩, le_refl 0⟩
  | succ n ih =>
    intro k acc keys h1 h2 h3 h4
    simp only [sampleDiversePathsAux]
    by_cases hlen : acc.length < mP
    · rw [if_pos hlen]
      by_cases hkey : keys.contains (pathKey (randomWalk r rng k s mL).1) = true
      · rw [if_pos hkey]
        have hrec := ih (randomWalk r rng k s mL).2 acc keys h1 h2 h3 h4
        exact ⟨hrec.1, hrec.2.1, hrec.2.2.1, hrec.2.2.2.1,
          Nat.succ_le_succ hrec.2.2.2.2⟩
      · rw [if_neg hkey]
        by_cases hshort : (randomWalk r rng k s mL).1.length < 2
        · rw [if_pos hshort]
          have h2a : ∀ w ∈ acc,
              pathKey w ∈ keys ++ [pathKey (randomWalk r rng k s mL).1] :=
            fun w hw => List.mem_append_left _ (h2 w hw)
          have hrec := ih (randomWalk r rng k s mL).2 acc
            (keys ++ [pathKey (randomWalk r rng k s mL).1]) h1 h2a h3 h4
          exact ⟨hrec.1, hrec.2.1, hrec.2.2.1, hrec.2.2.2.1,
            Nat.succ_le_succ hrec.2.2.2.2⟩
        · rw [if_neg hshort]
          have hnotmem : pathKey (randomWalk r rng k s mL).1 ∉ keys := by
            intro hmem
            exact hkey (List.elem_iff.mpr hmem)
          have h1a : (acc ++ [(randomWalk r rng k s mL).1]).length ≤ mP := by
            rw [List.length_append]
            simpa using hlen
          have h2a : ∀ w ∈ acc ++ [(randomWalk r rng k s mL).1],
              pathKey w ∈ keys ++ [pathKey (randomWalk r rng k s mL).1] := by
            intro w hw
            rcases List.mem_append.mp hw with hw | hw
            · exact List.mem_append_left _ (h2 w hw)
            · rcases List.mem_singleton.mp hw with rfl
              exact List.mem_append_right _ (List.mem_singleton.mpr rfl)
          have h3a : ((acc ++ [(randomWalk r rng k s mL).1]).map pathKey).Nodup := by
            rw [List.map_append]
            apply List.Nodup.append h3 (by simp)
            intro x hx hy
            rcases List.mem_map.mp hx with ⟨w, hw, rfl⟩
            have hxeq : pathKey w = pathKey (randomWalk r rng k s mL).1 := by
              simpa using hy
            exact hnotmem (hxeq ▸ h2 w hw)
          have h4a : ∀ w ∈ acc ++ [(randomWalk r rng k s mL).1], 2 ≤ w.length := by
            intro w hw
            rcases List.mem_append.mp hw with hw | hw
            · exact h4 w hw
            · rcases List.mem_singleton.mp hw with rfl
              exact Nat.le_of_not_lt hshort
          have hrec := ih (randomWalk r rng k s mL).2 (acc ++ [(randomWalk r rng k s mL).1])
            (keys ++ [pathKey (randomWalk r rng k s mL).1]) h1a h2a h3a h4a
          exact ⟨hrec.1, hrec.2.1, hrec.2.2.1, hrec.2.2.2.1,
            Nat.succ_le_succ hrec.2.2.2.2⟩
    · rw [if_neg hlen]
      exact ⟨h1, h3, h4, fun w hw => List.mem_map.mpr ⟨w, hw, rfl⟩, Nat.zero_le _⟩

/-- Every breadth-first result is a nonempty path from `s0` to the
target. -/
theorem bfsAux_sound (g : KGraph) (t s0 : String) :
    ∀ (fuel : ℕ) (queue : List (List String)) (visited : List String)
      (res : List String),
    (∀ q ∈ queue, q ≠ [] ∧ q.getLast? = some s0) →
    bfsAux g t fuel queue visited = some res →
    res ≠ [] ∧ res.head? = some s0 ∧ res.getLast? = some t := by
  intro fuel
  induction fuel with
  | zero => intro queue visited res _ h; cases h
  | succ n ih =>
    intro queue visited res hinv h
    cases queue with
    | nil => simp only [bfsAux] at h; cases h
    | cons p rest =>
      have hp := hinv p (List.mem_cons_self _ _)
      cases p with
      | nil => exact absurd rfl hp.1
      | cons cur ptail =>
        simp only [bfsAux] at h
        by_cases hcur : cur = t
        · rw [if_pos hcur] at h
          injection h with h
          subst h
          refine ⟨by simp, ?_, ?_⟩
          · rw [List.head?_reverse]
            exact hp.2
          · rw [List.getLast?_reverse]
            simp [hcur]
        · rw [if_neg hcur] at h
          apply ih _ _ res _ h
          intro q hq2
          rcases List.mem_append.mp hq2 with hq2 | hq2
          · exact hinv q (List.mem_cons_of_mem _ hq2)
          · rcases List.mem_map.mp hq2 with ⟨nb, _, rfl⟩
            refine ⟨by simp, ?_⟩
            rw [List.getLast?_cons_cons]
            exact hp.2

/-- A found path between distinct endpoints has at least two nodes. -/
theorem bidirectionalShortestPath_len (g : KGraph) (s t : String) (ids : List String)
    (hne : s ≠ t) (h : bidirectionalShortestPath g s t = some ids) :
    2 ≤ ids.length := by
  unfold bidirectionalShortestPath at h
  by_cases hnode : (hasNode g s && hasNode g t) = true
  · rw [if_pos hnode, if_neg hne] at h
    have hsound := bfsAux_sound g t s (g.nodes.length + g.edges.length + 2) [[s]] [s] ids
      (by intro q hq; rcases List.mem_singleton.mp hq with rfl; exact ⟨by simp, rfl⟩) h
    match ids, hsound with
    | [], hsound => exact absurd rfl hsound.1
    | [x], hsound =>
      simp only [List.head?_cons, List.getLast?_singleton] at hsound
      exact absurd ((Option.some.inj hsound.2.1).symm.trans
        (Option.some.inj hsound.2.2)) hne
    | x :: y :: l, _ => simp
  · rw [if_neg hnode] at h; cases h

/-- The trivial path returned in targeted mode when source equals
target. -/
theorem bidirectionalShortestPath_self (g : KGraph) (s : String)
    (hs : hasNode g s = true) :
    bidirectionalShortestPath g s s = some [s] := by
  unfold bidirectionalShortestPath
  rw [if_pos (by rw [hs]; rfl), if_pos rfl]

/-- Field shape of `constructGraphPath`. -/
theorem constructGraphPath_shape (g : KGraph) (ids : List String) :
    (constructGraphPath g ids).length = ids.length
    ∧ (constructGraphPath g ids).nodes.length = ids.length
    ∧ (constructGraphPath g ids).edges.length = ids.length - 1 := by
  refine ⟨rfl, by simp [constructGraphPath], ?_⟩
  simp only [constructGraphPath, List.length_map, List.length_zip, List.length_tail]
  exact Nat.min_eq_right (Nat.sub_le _ _)

/-- The `|| default` parameters are always at least 1 when the default
is. -/
theorem one_le_defaultOr (o : Option ℕ) (d : ℕ) (hd : 1 ≤ d) : 1 ≤ defaultOr o d := by
  match o with
  | none => exact hd
  | some n =>
    by_cases hn : n = 0
    · simp [defaultOr, hn, hd]
    · simp only [defaultOr, if_neg hn]
      exact Nat.one_le_iff_ne_zero.mpr hn

/-- Aggregate form of the sampler invariants starting from the empty
state. -/
theorem sampleDiverseWalks_spec (r : GraphReasoner) (rng : ℕ → ℚ) (s : String)
    (mL mP : ℕ) :
    (sampleDiverseWalks r rng s mL mP).length ≤ mP
    ∧ (sampleDiverseWalks r rng s mL mP).Nodup
    ∧ (∀ w ∈ sampleDiverseWalks r rng s mL mP, 2 ≤ w.length) := by
  have h := sampleDiversePathsAux_spec r rng s mL mP (mP * 10) 0 [] []
    (by simp) (by simp) (by simp) (by simp)
  exact ⟨h.1, List.Nodup.of_map _ h.2.1, h.2.2.1⟩

/-- Every result of `findPaths` is a novelty-scored member of the raw path
list. -/
theorem mem_findPaths {r : GraphReasoner} {rng : ℕ → ℚ} {s : String}
    {tgt : Option String} {pl mr : Option ℕ} {p : GraphPath}
    (hp : p ∈ findPaths r rng s tgt pl mr) :
    ∃ q, q ∈ findPathsRaw r rng s tgt (defaultOr pl 4) (defaultOr mr 10)
      ∧ p = { q with novelty := calculateNoveltyScore r q } := by
  simp only [findPaths] at hp
  have h1 := List.mem_of_mem_take hp
  have h2 := (sortDescBy_perm (fun p : GraphPath => p.novelty) _).mem_iff.mp h1
  rcases List.mem_map.mp h2 with ⟨q, hq, hpq⟩
  exact ⟨q, hq, hpq.symm⟩

/-- A found shortest path is never the empty list. -/
theorem bidirectionalShortestPath_ne_nil (g : KGraph) (s t : String)
    (ids : List String) (h : bidirectionalShortestPath g s t = some ids) :
    ids ≠ [] := by
  unfold bidirectionalShortestPath at h
  by_cases hnode : (hasNode g s && hasNode g t) = true
  · rw [if_pos hnode] at h
    by_cases hst : s = t
    · rw [if_pos hst] at h
      injection h with h
      rw [← h]
      simp
    · rw [if_neg hst] at h
      exact (bfsAux_sound g t s (g.nodes.length + g.edges.length + 2) [[s]] [s] ids
        (by intro q hq; rcases List.mem_singleton.mp hq with rfl; exact ⟨by simp, rfl⟩) h).1
  · rw [if_neg hnode] at h; cases h

/-- Every raw path of `findPaths` is `constructGraphPath` of a nonempty
node-id list; in diverse mode the list has at least 2 nodes, and in
targeted mode it has at least 2 nodes whenever source and target
differ. -/
theorem mem_findPathsRaw (r : GraphReasoner) (rng : ℕ → ℚ) (s : String)
    (tgt : Option String) (mL mR : ℕ) (q : GraphPath)
    (hq : q ∈ findPathsRaw r rng s tgt mL mR) :
    ∃ ids, q = constructGraphPath r.graph ids ∧ ids ≠ []
      ∧ (tgt = none → 2 ≤ ids.length)
      ∧ (∀ t0, tgt = some t0 → s ≠ t0 → 2 ≤ ids.length) := by
  cases tgt with
  | none =>
    simp only [findPathsRaw, sampleDiversePaths] at hq
    rcases List.mem_map.mp hq with ⟨w, hw, rfl⟩
    have hlen := (sampleDiverseWalks_spec r rng s mL mR).2.2 w hw
    refine ⟨w, rfl, ?_, fun _ => hlen, fun t0 h => by cases h⟩
    intro hnil
    rw [hnil] at hlen
    simp at hlen
  | some t0 =>
    simp only [findPathsRaw] at hq
    cases hbfs : bidirectionalShortestPath r.graph s t0 with
    | none => rw [hbfs] at hq; simp at hq
    | some ids =>
      rw [hbfs] at hq
      rcases List.mem_singleton.mp hq with rfl
      refine ⟨ids, rfl, bidirectionalShortestPath_ne_nil r.graph s t0 ids hbfs, ?_, ?_⟩
      · intro h; cases h
      · intro t1 ht1 hne
        injection ht1 with ht1
        subst ht1
        exact bidirectionalShortestPath_len r.graph s t0 ids hne hbfs

/-- C6: diverse sampling performs at most `10 × maxResults` random-walk
attempts, returns at most `maxResults` paths whose node-id walks are
pairwise distinct with each walk at least 2 nodes long, and on the star
fixture graph with `maxResults = 5` but only two reachable distinct walks
it returns exactly the two unique walks — no padding, no error. -/
theorem C6_diverse_sampling_bounds :
    (∀ (r : GraphReasoner) (rng : ℕ → ℚ) (s : String) (mL mP : ℕ),
      (sampleDiversePathsAux r rng s mL mP (mP * 10) 0 [] []).2 ≤ mP * 10
      ∧ (sampleDiversePaths r rng s mL mP).length ≤ mP
      ∧ (sampleDiverseWalks r rng s mL mP).Nodup
      ∧ ∀ w ∈ sampleDiverseWalks r rng s mL mP, 2 ≤ w.length)
    ∧ sampleDiverseWalks (freshReasoner fixGraphStar) rngStar "s" 4 5
        = [["s", "a"], ["s", "b"]]
    ∧ (sampleDiversePaths (freshReasoner fixGraphStar) rngStar "s" 4 5).length = 2 := by
  refine ⟨?_, by decide, by decide⟩
  intro r rng s mL mP
  have h := sampleDiversePathsAux_spec r rng s mL mP (mP * 10) 0 [] []
    (by simp) (by simp) (by simp) (by simp)
  have hspec := sampleDiverseWalks_spec r rng s mL mP
  refine ⟨h.2.2.2.2, ?_, hspec.2.1, hspec.2.2⟩
  simpa [sampleDiversePaths] using hspec.1

/-- C6 witness: the sampler bounds applied on the star fixture. -/
theorem C6_witness :
    (sampleDiversePaths (freshReasoner fixGraphStar) rngStar "s" 4 5).length ≤ 5
    ∧ 2 ≤ (["s", "a"] : List String).length :=
  ⟨(C6_diverse_sampling_bounds.1 (freshReasoner fixGraphStar) rngStar "s" 4 5).2.1,
   (C6_diverse_sampling_bounds.1 (freshReasoner fixGraphStar) rngStar "s" 4 5).2.2.2
     ["s", "a"] (by decide)⟩

/-- C5 (amended): every returned GraphPath satisfies
`length == len(nodes) == len(edges) + 1`; `length ≥ 2` holds for every
diverse-mode path and for every targeted-mode path with distinct
endpoints; but targeted mode with `sourceId == targetId` (node present)
returns the single-node trivial path of length 1. -/
theorem C5_amended_path_shape :
    (∀ (r : GraphReasoner) (rng : ℕ → ℚ) (s : String) (tgt : Option String)
        (pl mr : Option ℕ) (p : GraphPath), p ∈ findPaths r rng s tgt pl mr →
      p.length = p.nodes.length ∧ p.edges.length + 1 = p.nodes.length)
    ∧ (∀ (r : GraphReasoner) (rng : ℕ → ℚ) (s : String) (pl mr : Option ℕ)
        (p : GraphPath), p ∈ findPaths r rng s none pl mr → 2 ≤ p.length)
    ∧ (∀ (r : GraphReasoner) (rng : ℕ → ℚ) (s t : String) (pl mr : Option ℕ)
        (p : GraphPath), s ≠ t → p ∈ findPaths r rng s (some t) pl mr → 2 ≤ p.length)
    ∧ (∀ (r : GraphReasoner) (rng : ℕ → ℚ) (s : String) (pl mr : Option ℕ),
        hasNode r.graph s = true →
        (findPaths r rng s (some s) pl mr).map (fun p => p.length) = [1]) := by
  refine ⟨?_, ?_, ?_, ?_⟩
  · intro r rng s tgt pl mr p hp
    rcases mem_findPaths hp with ⟨q, hq, rfl⟩
    rcases mem_findPathsRaw r rng s tgt _ _ q hq with ⟨ids, rfl, hne, _, _⟩
    have hshape := constructGraphPath_shape r.graph ids
    have hpos : 1 ≤ ids.length := List.length_pos.mpr hne
    constructor
    · exact hshape.1.trans hshape.2.1.symm
    · show (constructGraphPath r.graph ids).edges.length + 1
        = (constructGraphPath r.graph ids).nodes.length
      rw [hshape.2.2, hshape.2.1]
      omega
  · intro r rng s pl mr p hp
    rcases mem_findPaths hp with ⟨q, hq, rfl⟩
    rcases mem_findPathsRaw r rng s none _ _ q hq with ⟨ids, rfl, _, hlen, _⟩
    have hshape := constructGraphPath_shape r.graph ids
    show 2 ≤ (constructGraphPath r.graph ids).length
    rw [hshape.1]
    exact hlen rfl
  · intro r rng s t pl mr p hst hp
    rcases mem_findPaths hp with ⟨q, hq, rfl⟩
    rcases mem_findPathsRaw r rng s (some t) _ _ q hq with ⟨ids, rfl, _, _, hlen⟩
    have hshape := constructGraphPath_shape r.graph ids
    show 2 ≤ (constructGraphPath r.graph ids).length
    rw [hshape.1]
    exact hlen t rfl hst
  · intro r rng s pl mr hs
    have hraw : findPathsRaw r rng s (some s) (defaultOr pl 4) (defaultOr mr 10)
        = [constructGraphPath r.graph [s]] := by
      simp only [findPathsRaw, bidirectionalShortestPath_self r.graph s hs]
    simp only [findPaths, hraw, List.map_cons, List.map_nil]
    have hsingle : ∀ (x : GraphPath), sortDescBy (fun y : GraphPath => y.novelty) [x] = [x] :=
      fun x => rfl
    rw [hsingle]
    have hn := one_le_defaultOr mr 10 (by norm_num)
    cases hdm : defaultOr mr 10 with
    | zero => rw [hdm] at hn; cases hn
    | succ m =>
      simp only [List.take_succ_cons, List.take_nil, List.map_cons, List.map_nil]
      rfl

/-- C5 witness: the amended conjuncts applied on the two-node fixture:
source equal to target yields the length-1 path, and the targeted path
from `a` to `b` has at least two nodes. -/
theorem C5_amended_witness :
    (findPaths (freshReasoner fixGraphAB) (fun _ => 0) "a" (some "a") none none).map
      (fun p => p.length) = [1]
    ∧ 2 ≤ ((findPaths (freshReasoner fixGraphAB) (fun _ => 0) "a" (some "b") none none).headD
        (constructGraphPath fixGraphAB [])).length :=
  ⟨C5_amended_path_shape.2.2.2 (freshReasoner fixGraphAB) (fun _ => 0) "a" none none
      (by decide),
   C5_amended_path_shape.2.2.1 (freshReasoner fixGraphAB) (fun _ => 0) "a" "b" none none
      ((findPaths (freshReasoner fixGraphAB) (fun _ => 0) "a" (some "b") none none).headD
        (constructGraphPath fixGraphAB [])) (by decide) (by decide)⟩

/-! ## Co-occurrence counting lemmas -/

/-- The co-occurrence count of an ordered pair as read back from the
nested map. -/
def cooCount (m : List (String × List (String × ℕ))) (s t : String) : ℕ :=
  (((alookup s m).bind (fun ts => alookup t ts)).getD 0)

/-- Effect of one `bumpCount` on lookups. -/
theorem alookup_bumpCount (m : List (String × ℕ)) (p t : String) :
    alookup t (bumpCount m p)
      = if t = p then some (((alookup p m).getD 0) + 1) else alookup t m := by
  unfold bumpCount
  by_cases hp : (alookup p m).isSome = true
  · rw [if_pos hp]
    rw [alookup_map_cond (fun v => v + 1) p m t]
    by_cases ht : t = p
    · subst ht
      cases halo : alookup t m with
      | none => rw [halo] at hp; cases hp
      | some v => simp [halo]
    · rw [if_neg ht, if_neg ht]
  · rw [if_neg hp]
    rw [alookup_append]
    by_cases ht : t = p
    · subst ht
      cases halo : alookup t m with
      | none => simp [alookup]
      | some v => rw [halo] at hp; simp at hp
    · cases halo : alookup t m with
      | none =>
        have hpt : ¬ (p = t) := fun h => ht h.symm
        simp [alookup, hpt, ht]
      | some v => simp [ht]

/-- Effect of one `bumpPair` on pair counts. -/
theorem cooCount_bumpPair (m : List (String × List (String × ℕ))) (a b s t : String) :
    cooCount (bumpPair m a b) s t
      = cooCount m s t + (if s = a ∧ t = b then 1 else 0) := by
  unfold bumpPair cooCount
  by_cases ha : (alookup a m).isSome = true
  · rw [if_pos ha]
    rw [alookup_map_cond (fun ts => bumpCount ts b) a m s]
    by_cases hs : s = a
    · rw [if_pos hs]
      subst hs
      cases halo : alookup s m with
      | none => rw [halo] at ha; cases ha
      | some ts =>
        show (alookup t (bumpCount ts b)).getD 0
          = (alookup t ts).getD 0 + (if s = s ∧ t = b then 1 else 0)
        rw [alookup_bumpCount]
        by_cases ht : t = b
        · subst ht; simp
        · simp [ht]
    · rw [if_neg hs]
      simp [hs]
  · rw [if_neg ha]
    rw [alookup_append]
    by_cases hs : s = a
    · subst hs
      cases halo : alookup s m with
      | none =>
        by_cases ht : t = b
        · subst ht
          simp [alookup]
        · have hbt : ¬ (b = t) := fun h => ht h.symm
          simp [alookup, hbt, ht]
      | some ts => rw [halo] at ha; simp at ha
    · cases halo : alookup s m with
      | none =>
        have has : ¬ (a = s) := fun h => hs h.symm
        simp [alookup, has, hs]
      | some ts =>
        simp [hs]

/-- The multiplicity of one ordered pair in a pair list. -/
def pairCount (ps : List (String × String)) (s t : String) : ℕ :=
  ps.countP (fun q => decide (q = (s, t)))

/-- Folding a pair list over the map adds exactly the pair's
multiplicity. -/
theorem cooCount_foldl_pairs (ps : List (String × String)) :
    ∀ (m : List (String × List (String × ℕ))) (s t : String),
    cooCount (ps.foldl (fun m q => bumpPair m q.1 q.2) m) s t
      = cooCount m s t + pairCount ps s t := by
  induction ps with
  | nil => intro m s t; simp [pairCount]
  | cons q ps ih =>
    intro m s t
    rw [List.foldl_cons, ih, cooCount_bumpPair]
    unfold pairCount
    rw [List.countP_cons]
    by_cases hq : q = (s, t)
    · subst hq
      have h1 : (decide ((s, t) = (s, t))) = true := by simp
      have h2 : (s = (s, t).1 ∧ t = (s, t).2) := ⟨rfl, rfl⟩
      rw [if_pos h2, if_pos h1]
      omega
    · obtain ⟨q1, q2⟩ := q
      have hq2 : ¬ (s = q1 ∧ t = q2) := by
        intro h
        exact hq (by rw [← h.1, ← h.2])
      simp only [decide_eq_true_eq, if_neg hq2, if_neg hq]
      omega

/-- The final pair count is the sum over the paper store of each paper's
pair multiplicity. -/
theorem cooCount_cooccurrenceMap (store : List Paper)
    (concepts : List (String × ConceptNode)) (s t : String) :
    cooCount (cooccurrenceMap store concepts) s t
      = (store.map (fun p => pairCount (allPairs (paperConceptIds concepts p.id)) s t)).sum := by
  suffices h : ∀ (st : List Paper) (m : List (String × List (String × ℕ))),
      cooCount (st.foldl (fun m p =>
        (allPairs (paperConceptIds concepts p.id)).foldl (fun m q => bumpPair m q.1 q.2) m) m) s t
        = cooCount m s t
          + (st.map (fun p => pairCount (allPairs (paperConceptIds concepts p.id)) s t)).sum by
    have h0 : cooCount [] s t = 0 := rfl
    simpa [cooccurrenceMap, h0] using h store []
  intro st
  induction st with
  | nil => intro m; simp
  | cons p ps ih =>
    intro m
    rw [List.foldl_cons, ih, cooCount_foldl_pairs]
    simp [Nat.add_assoc]

/-- Pairs come from members of the underlying list. -/
theorem mem_allPairs : ∀ (l : List String) (p : String × String),
    p ∈ allPairs l → p.1 ∈ l ∧ p.2 ∈ l := by
  intro l
  induction l with
  | nil => intro p h; simp [allPairs] at h
  | cons x xs ih =>
    intro p h
    rcases List.mem_append.mp h with h | h
    · rcases List.mem_map.mp h with ⟨y, hy, rfl⟩
      exact ⟨List.mem_cons_self _ _, List.mem_cons_of_mem _ hy⟩
    · rcases ih p h with ⟨h1, h2⟩
      exact ⟨List.mem_cons_of_mem _ h1, List.mem_cons_of_mem _ h2⟩

/-- On a duplicate-free list the generated pairs are duplicate-free. -/
theorem allPairs_nodup : ∀ (l : List String), l.Nodup → (allPairs l).Nodup := by
  intro l
  induction l with
  | nil => intro _; simp [allPairs]
  | cons x xs ih =>
    intro h
    rw [List.nodup_cons] at h
    apply List.Nodup.append
    · exact h.2.map (fun a b hab => by cases hab; rfl)
    · exact ih h.2
    · intro p hp hp2
      rcases List.mem_map.mp hp with ⟨y, _, rfl⟩
      exact h.1 (mem_allPairs xs (x, y) hp2).1

/-- In a duplicate-free pair list every multiplicity is at most one. -/
theorem pairCount_le_one_of_nodup :
    ∀ (ps : List (String × String)), ps.Nodup → ∀ (s t : String), pairCount ps s t ≤ 1 := by
  intro ps
  induction ps with
  | nil => intro _ s t; simp [pairCount]
  | cons q qs ih =>
    intro h s t
    rw [List.nodup_cons] at h
    unfold pairCount
    rw [List.countP_cons]
    by_cases hq : q = (s, t)
    · have hz : qs.countP (fun q => decide (q = (s, t))) = 0 := by
        rw [List.countP_eq_zero]
        intro a ha
        simp only [decide_eq_true_eq]
        intro haq
        exact h.1 (by rw [hq, ← haq]; exact ha)
      rw [hz]
      simp [hq]
    · have := ih h.2 s t
      unfold pairCount at this
      simp only [decide_eq_true_eq, if_neg hq]
      omega

/-- A positive multiplicity exhibits a member. -/
theorem mem_of_pairCount_pos (ps : List (String × String)) (s t : String)
    (h : 0 < pairCount ps s t) : (s, t) ∈ ps := by
  unfold pairCount at h
  rcases List.countP_pos_iff.mp h with ⟨a, ha, hp⟩
  simp only [decide_eq_true_eq] at hp
  exact hp ▸ ha

/-- Each ordered pair is counted at most once per paper. -/
theorem count_allPairs_le_one (l : List String) (h : l.Nodup) (s t : String) :
    pairCount (allPairs l) s t ≤ 1 :=
  pairCount_le_one_of_nodup (allPairs l) (allPairs_nodup l h) s t

/-! ## Emission characterization of `buildRelationships` -/

/-- Every edge produced by the inner loop is either carried over or built
from one of the counted targets. -/
theorem mem_emitEdgesForSource (store : List Paper)
    (concepts : List (String × ConceptNode)) (src : String) (sc : ConceptNode) :
    ∀ (ts : List (String × ℕ)) (acc : List ConceptEdge) (ed : ConceptEdge),
    ed ∈ emitEdgesForSource store concepts src sc ts acc →
    ed ∈ acc ∨ ∃ t cnt tc, (t, cnt) ∈ ts ∧ alookup t concepts = some tc
      ∧ weightGuard cnt (min sc.frequency tc.frequency) = true
      ∧ ed = { source := src, target := t, type := "relates_to",
               weight := (cnt : ℚ) / ((min sc.frequency tc.frequency : ℕ) : ℚ),
               confidence := (cnt : ℚ) / ((max sc.frequency tc.frequency : ℕ) : ℚ),
               evidence := edgeEvidence store sc tc } := by
  intro ts
  induction ts with
  | nil => intro acc ed h; exact Or.inl h
  | cons tn ts ih =>
    intro acc ed h
    rw [emitEdgesForSource, List.foldl_cons] at h
    have h2 := ih _ ed h
    rcases h2 with h2 | h2
    · cases halo : alookup tn.1 concepts with
      | none =>
        rw [halo] at h2
        exact Or.inl h2
      | some tc =>
        rw [halo] at h2
        by_cases hg : weightGuard tn.2 (min sc.frequency tc.frequency) = true
        · simp only [hg, if_true] at h2
          rcases List.mem_append.mp h2 with h3 | h3
          · exact Or.inl h3
          · rcases List.mem_singleton.mp h3 with rfl
            exact Or.inr ⟨tn.1, tn.2, tc, List.mem_cons_self _ _, halo, hg, rfl⟩
        · simp only [hg, if_false] at h2
          exact Or.inl h2
    · rcases h2 with ⟨t, cnt, tc, hmem, hrest⟩
      exact Or.inr ⟨t, cnt, tc, List.mem_cons_of_mem _ hmem, hrest⟩

/-- Every emitted edge of `buildRelationships` stems from one counted
co-occurrence pair with both endpoint lookups successful and the weight
guard passed. -/
theorem mem_buildRelationships (store : List Paper)
    (concepts : List (String × ConceptNode)) (ed : ConceptEdge)
    (h : ed ∈ buildRelationships store concepts) :
    ∃ s ts t cnt sc tc, (s, ts) ∈ cooccurrenceMap store concepts ∧ (t, cnt) ∈ ts
      ∧ alookup s concepts = some sc ∧ alookup t concepts = some tc
      ∧ weightGuard cnt (min sc.frequency tc.frequency) = true
      ∧ ed = { source := s, target := t, type := "relates_to",
               weight := (cnt : ℚ) / ((min sc.frequency tc.frequency : ℕ) : ℚ),
               confidence := (cnt : ℚ) / ((max sc.frequency tc.frequency : ℕ) : ℚ),
               evidence := edgeEvidence store sc tc } := by
  rw [buildRelationships] at h
  suffices hgen : ∀ (l : List (String × List (String × ℕ))) (acc : List ConceptEdge),
      ed ∈ l.foldl (fun acc st =>
        match alookup st.1 concepts with
        | none => acc
        | some sc => emitEdgesForSource store concepts st.1 sc st.2 acc) acc →
      ed ∈ acc ∨ ∃ s ts t cnt sc tc, (s, ts) ∈ l ∧ (t, cnt) ∈ ts
        ∧ alookup s concepts = some sc ∧ alookup t concepts = some tc
        ∧ weightGuard cnt (min sc.frequency tc.frequency) = true
        ∧ ed = { source := s, target := t, type := "relates_to",
                 weight := (cnt : ℚ) / ((min sc.frequency tc.frequency : ℕ) : ℚ),
                 confidence := (cnt : ℚ) / ((max sc.frequency tc.frequency : ℕ) : ℚ),
                 evidence := edgeEvidence store sc tc } by
    rcases hgen (cooccurrenceMap store concepts) [] h with h2 | h2
    · simp at h2
    · exact h2
  intro l
  induction l with
  | nil => intro acc h2; exact Or.inl h2
  | cons st l ih =>
    intro acc h2
    rw [List.foldl_cons] at h2
    rcases ih _ h2 with h3 | h3
    · cases halo : alookup st.1 concepts with
      | none =>
        rw [halo] at h3
        exact Or.inl h3
      | some sc =>
        rw [halo] at h3
        rcases mem_emitEdgesForSource store concepts st.1 sc st.2 acc ed h3 with h4 | h4
        · exact Or.inl h4
        · rcases h4 with ⟨t, cnt, tc, hmem, halot, hg, hed⟩
          exact Or.inr ⟨st.1, st.2, t, cnt, sc, tc, List.mem_cons_self _ _, hmem,
            halo, halot, hg, hed⟩
    · rcases h3 with ⟨s, ts, t, cnt, sc, tc, hmem, hrest⟩
      exact Or.inr ⟨s, ts, t, cnt, sc, tc, List.mem_cons_of_mem _ hmem, hrest⟩

/-! ## Well-formedness of the co-occurrence map and the extracted
concepts -/

/-- Structural invariant of the nested co-occurrence map: distinct outer
keys, distinct inner keys, and strictly positive counts. -/
def CoWF (m : List (String × List (String × ℕ))) : Prop :=
  ((m.map Prod.fst).Nodup)
  ∧ ∀ en ∈ m, (((en : String × List (String × ℕ)).2.map Prod.fst).Nodup)
      ∧ ∀ e ∈ en.2, 1 ≤ (e : String × ℕ).2

/-- One `bumpCount` keeps inner keys distinct and counts positive. -/
theorem bumpCount_wf (ts : List (String × ℕ)) (b : String)
    (hnd : (ts.map Prod.fst).Nodup) (hpos : ∀ e ∈ ts, 1 ≤ (e : String × ℕ).2) :
    (((bumpCount ts b).map Prod.fst).Nodup)
    ∧ ∀ e ∈ bumpCount ts b, 1 ≤ (e : String × ℕ).2 := by
  unfold bumpCount
  by_cases hp : (alookup b ts).isSome = true
  · rw [if_pos hp]
    constructor
    · rw [keys_map_cond (fun v => v + 1) b ts]
      exact hnd
    · intro e he
      rcases List.mem_map.mp he with ⟨y, hy, rfl⟩
      by_cases hyb : y.1 = b
      · simp only [if_pos hyb]
        omega
      · simp only [if_neg hyb]
        exact hpos y hy
  · rw [if_neg hp]
    constructor
    · rw [List.map_append]
      apply List.Nodup.append hnd (by simp)
      intro x hx hx2
      rcases List.mem_singleton.mp (by simpa using hx2) with rfl
      rw [← alookup_isSome_iff] at hx
      exact hp hx
    · intro e he
      rcases List.mem_append.mp he with he | he
      · exact hpos e he
      · rcases List.mem_singleton.mp he with rfl
        exact le_refl 1

/-- One `bumpPair` preserves the co-occurrence invariant. -/
theorem bumpPair_coWF (m : List (String × List (String × ℕ))) (a b : String)
    (h : CoWF m) : CoWF (bumpPair m a b) := by
  unfold bumpPair
  by_cases ha : (alookup a m).isSome = true
  · rw [if_pos ha]
    constructor
    · rw [keys_map_cond (fun ts => bumpCount ts b) a m]
      exact h.1
    · intro en hen
      rcases List.mem_map.mp hen with ⟨y, hy, rfl⟩
      by_cases hya : y.1 = a
      · simp only [if_pos hya]
        exact bumpCount_wf y.2 b (h.2 y hy).1 (h.2 y hy).2
      · simp only [if_neg hya]
        exact h.2 y hy
  · rw [if_neg ha]
    constructor
    · rw [List.map_append]
      apply List.Nodup.append h.1 (by simp)
      intro x hx hx2
      rcases List.mem_singleton.mp (by simpa using hx2) with rfl
      rw [← alookup_isSome_iff] at hx
      exact ha hx
    · intro en hen
      rcases List.mem_append.mp hen with hen | hen
      · exact h.2 en hen
      · rcases List.mem_singleton.mp hen with rfl
        exact ⟨by simp, by intro e he; rcases List.mem_singleton.mp he with rfl; exact le_refl 1⟩

/-- Folding any pair list preserves the invariant. -/
theorem coWF_foldl_pairs (ps : List (String × String)) :
    ∀ (m : List (String × List (String × ℕ))), CoWF m →
    CoWF (ps.foldl (fun m q => bumpPair m q.1 q.2) m) := by
  induction ps with
  | nil => intro m h; exact h
  | cons q ps ih =>
    intro m h
    rw [List.foldl_cons]
    exact ih _ (bumpPair_coWF m q.1 q.2 h)

/-- The full co-occurrence map is well-formed. -/
theorem coWF_cooccurrenceMap (store : List Paper)
    (concepts : List (String × ConceptNode)) :
    CoWF (cooccurrenceMap store concepts) := by
  unfold cooccurrenceMap
  suffices h : ∀ (st : List Paper) (m : List (String × List (String × ℕ))), CoWF m →
      CoWF (st.foldl (fun m p =>
        (allPairs (paperConceptIds concepts p.id)).foldl (fun m q => bumpPair m q.1 q.2) m) m) by
    exact h store [] ⟨by simp, by simp⟩
  intro st
  induction st with
  | nil => intro m h; exact h
  | cons p ps ih =>
    intro m h
    rw [List.foldl_cons]
    exact ih _ (coWF_foldl_pairs _ m h)

/-- Structural invariant of the aggregated concept map: distinct keys,
each key equal to its node's id, and on every node
`len(papers) ≤ frequency` with `frequency ≥ 1`. -/
def ConceptsWF (m : List (String × ConceptNode)) : Prop :=
  ((m.map Prod.fst).Nodup)
  ∧ ∀ en ∈ m, (en : String × ConceptNode).1 = en.2.id
      ∧ en.2.papers.length ≤ en.2.frequency ∧ 1 ≤ en.2.frequency

/-- One `addConcept` preserves the concept-map invariant (given the
candidate honours the frequency bounds). -/
theorem addConcept_wf (m : List (String × ConceptNode)) (pid : String) (c : ConceptNode)
    (h : ConceptsWF m) (hc1 : c.papers.length ≤ c.frequency) (hc2 : 1 ≤ c.frequency) :
    ConceptsWF (addConcept m pid c) := by
  unfold addConcept
  by_cases hp : (alookup c.id m).isSome = true
  · rw [if_pos hp]
    constructor
    · rw [keys_map_cond
        (fun v => { v with papers := v.papers ++ [pid], frequency := v.frequency + 1 }) c.id m]
      exact h.1
    · intro en hen
      rcases List.mem_map.mp hen with ⟨y, hy, rfl⟩
      by_cases hyc : y.1 = c.id
      · simp only [if_pos hyc]
        refine ⟨(h.2 y hy).1, ?_, ?_⟩
        · simp only [List.length_append, List.length_singleton]
          have := (h.2 y hy).2.1
          omega
        · have := (h.2 y hy).2.2
          omega
      · simp only [if_neg hyc]
        exact h.2 y hy
  · rw [if_neg hp]
    constructor
    · rw [List.map_append]
      apply List.Nodup.append h.1 (by simp)
      intro x hx hx2
      rcases List.mem_singleton.mp (by simpa using hx2) with rfl
      rw [← alookup_isSome_iff] at hx
      exact hp hx
    · intro en hen
      rcases List.mem_append.mp hen with hen | hen
      · exact h.2 en hen
      · rcases List.mem_singleton.mp hen with rfl
        exact ⟨rfl, hc1, hc2⟩

/-- Every candidate emitted by `identifyConcepts` has this paper as its
single supporting paper and in-paper frequency at least 2. -/
theorem identifyConcepts_cands (text : String) (pid : String) :
    ∀ c ∈ identifyConcepts text pid, c.papers = [pid] ∧ 2 ≤ c.frequency := by
  unfold identifyConcepts
  suffices h : ∀ (l : List (String × ℕ)) (acc : List ConceptNode × RegexState),
      (∀ c ∈ acc.1, c.papers = [pid] ∧ 2 ≤ c.frequency) →
      (∀ e ∈ l, 2 ≤ (e : String × ℕ).2) →
      ∀ c ∈ (l.foldl (classifyFold pid) acc).1, c.papers = [pid] ∧ 2 ≤ c.frequency by
    apply h _ ([], initRegexState) (by simp)
    intro e he
    have := (List.mem_filter.mp he).2
    rw [Bool.and_eq_true] at this
    exact of_decide_eq_true this.1
  intro l
  induction l with
  | nil => intro acc hacc _ c hc; exact hacc c hc
  | cons e l ih =>
    intro acc hacc hl c hc
    rw [List.foldl_cons] at hc
    refine ih _ ?_ (fun e2 he2 => hl e2 (List.mem_cons_of_mem _ he2)) c hc
    intro c2 hc2
    rcases List.mem_append.mp hc2 with hc2 | hc2
    · exact hacc c2 hc2
    · rcases List.mem_singleton.mp hc2 with rfl
      exact ⟨rfl, hl e (List.mem_cons_self _ _)⟩

/-- The aggregated concept map of `extractConcepts` is well-formed. -/
theorem extractConcepts_wf (ps : List Paper) : ConceptsWF (extractConcepts ps) := by
  unfold extractConcepts
  suffices h : ∀ (st : List Paper) (m : List (String × ConceptNode)), ConceptsWF m →
      ConceptsWF (st.foldl (fun m p =>
        (identifyConcepts (paperText p) p.id).foldl (fun m c => addConcept m p.id c) m) m) by
    exact h ps [] ⟨by simp, by simp⟩
  have hinner : ∀ (pid : String) (cands : List ConceptNode) (m : List (String × ConceptNode)),
      ConceptsWF m → (∀ c ∈ cands, c.papers.length ≤ c.frequency ∧ 1 ≤ c.frequency) →
      ConceptsWF (cands.foldl (fun m c => addConcept m pid c) m) := by
    intro pid cands
    induction cands with
    | nil => intro m h _; exact h
    | cons c cands ih =>
      intro m h hc
      rw [List.foldl_cons]
      refine ih _ (addConcept_wf m pid c h (hc c (List.mem_cons_self _ _)).1
        (hc c (List.mem_cons_self _ _)).2) ?_
      intro c2 hc2
      exact hc c2 (List.mem_cons_of_mem _ hc2)
  intro st
  induction st with
  | nil => intro m h; exact h
  | cons p ps2 ih =>
    intro m h
    rw [List.foldl_cons]
    apply ih
    apply hinner p.id _ m h
    intro c hc
    have := identifyConcepts_cands (paperText p) p.id c hc
    constructor
    · rw [this.1]
      simp only [List.length_singleton]
      omega
    · omega

/-- Per-paper concept-id lists have no duplicates (the concept map's keys
are distinct and equal to the node ids). -/
theorem paperConceptIds_nodup (concepts : List (String × ConceptNode)) (pid : String)
    (h : ConceptsWF concepts) : (paperConceptIds concepts pid).Nodup := by
  unfold paperConceptIds
  apply List.Nodup.sublist (List.Sublist.map _ (List.filter_sublist _))
  rw [List.map_map]
  have heq : concepts.map ((fun c : ConceptNode => c.id) ∘ fun e : String × ConceptNode => e.2)
      = concepts.map Prod.fst := by
    apply List.map_congr_left
    intro e he
    exact ((h.2 e he).1).symm
  rw [heq]
  exact h.1

/-- A concept id occurring in a paper's concept list supports that
paper. -/
theorem mem_paperConceptIds (concepts : List (String × ConceptNode)) (pid s : String)
    (sc : ConceptNode) (h : ConceptsWF concepts) (hs : alookup s concepts = some sc)
    (hmem : s ∈ paperConceptIds concepts pid) : sc.papers.contains pid = true := by
  unfold paperConceptIds at hmem
  rcases List.mem_map.mp hmem with ⟨c, hcf, hcid⟩
  rcases List.mem_filter.mp hcf with ⟨hcv, hcq⟩
  rcases List.mem_map.mp hcv with ⟨en, hen, rfl⟩
  have hkey : en.1 = s := by rw [(h.2 en hen).1, hcid]
  have hlook : alookup s concepts = some en.2 := by
    rw [← hkey]
    exact alookup_of_mem_nodup h.1 hen
  rw [hs] at hlook
  injection hlook with hlook
  rw [hlook]
  exact hcq

/-- Indicator sums count filtered elements. -/
theorem sum_ite_eq_length_filter (store : List Paper) (q : Paper → Bool) :
    (store.map (fun p => if q p = true then 1 else 0)).sum = (store.filter q).length := by
  induction store with
  | nil => rfl
  | cons p ps ih =>
    simp only [List.map_cons, List.sum_cons, List.filter_cons]
    by_cases hq : q p = true
    · simp [hq, ih, Nat.add_comm]
    · simp [hq, ih]

/-- With distinct paper ids, at most `len(papers)` store papers can carry
an id from `papers`. -/
theorem filter_store_le (store : List Paper) (papers : List String)
    (hstore : (store.map Paper.id).Nodup) :
    (store.filter (fun p => papers.contains p.id)).length ≤ papers.length := by
  have h1 : ((store.filter (fun p => papers.contains p.id)).map Paper.id).Nodup :=
    List.Nodup.sublist (List.Sublist.map _ (List.filter_sublist _)) hstore
  have h2 : ∀ x ∈ (store.filter (fun p => papers.contains p.id)).map Paper.id, x ∈ papers := by
    intro x hx
    rcases List.mem_map.mp hx with ⟨p, hp, rfl⟩
    have hc := (List.mem_filter.mp hp).2
    exact List.elem_iff.mp hc
  calc (store.filter (fun p => papers.contains p.id)).length
      = ((store.filter (fun p => papers.contains p.id)).map Paper.id).length :=
        (List.length_map _ _).symm
    _ = ((store.filter (fun p => papers.contains p.id)).map Paper.id).toFinset.card :=
        (List.toFinset_card_of_nodup h1).symm
    _ ≤ papers.toFinset.card :=
        Finset.card_le_card
          (fun x hx => List.mem_toFinset.mpr (h2 x (List.mem_toFinset.mp hx)))
    _ ≤ papers.length := papers.toFinset_card_le

/-- The co-occurrence count of a pair is bounded by the source concept's
frequency. -/
theorem cooCount_le_freq_src (store : List Paper)
    (concepts : List (String × ConceptNode)) (s t : String) (sc : ConceptNode)
    (hstore : (store.map Paper.id).Nodup) (hwf : ConceptsWF concepts)
    (hs : alookup s concepts = some sc) :
    cooCount (cooccurrenceMap store concepts) s t ≤ sc.frequency := by
  rw [cooCount_cooccurrenceMap]
  have hfreq : sc.papers.length ≤ sc.frequency := (hwf.2 _ (alookup_mem hs)).2.1
  have hterm : ∀ p ∈ store, pairCount (allPairs (paperConceptIds concepts p.id)) s t
      ≤ (if sc.papers.contains p.id = true then 1 else 0) := by
    intro p _
    by_cases hc : sc.papers.contains p.id = true
    · rw [if_pos hc]
      exact count_allPairs_le_one _ (paperConceptIds_nodup concepts p.id hwf) s t
    · rw [if_neg hc]
      rcases Nat.eq_zero_or_pos (pairCount (allPairs (paperConceptIds concepts p.id)) s t)
        with h0 | h0
      · exact h0.le
      · exact absurd (mem_paperConceptIds concepts p.id s sc hwf hs
          (mem_allPairs _ _ (mem_of_pairCount_pos _ _ _ h0)).1) hc
  calc (store.map (fun p => pairCount (allPairs (paperConceptIds concepts p.id)) s t)).sum
      ≤ (store.map (fun p => if sc.papers.contains p.id = true then 1 else 0)).sum :=
        List.sum_le_sum hterm
    _ = (store.filter (fun p => sc.papers.contains p.id)).length :=
        sum_ite_eq_length_filter store _
    _ ≤ sc.papers.length := filter_store_le store sc.papers hstore
    _ ≤ sc.frequency := hfreq

/-- The co-occurrence count of a pair is bounded by the target concept's
frequency. -/
theorem cooCount_le_freq_tgt (store : List Paper)
    (concepts : List (String × ConceptNode)) (s t : String) (tc : ConceptNode)
    (hstore : (store.map Paper.id).Nodup) (hwf : ConceptsWF concepts)
    (ht : alookup t concepts = some tc) :
    cooCount (cooccurrenceMap store concepts) s t ≤ tc.frequency := by
  rw [cooCount_cooccurrenceMap]
  have hfreq : tc.papers.length ≤ tc.frequency := (hwf.2 _ (alookup_mem ht)).2.1
  have hterm : ∀ p ∈ store, pairCount (allPairs (paperConceptIds concepts p.id)) s t
      ≤ (if tc.papers.contains p.id = true then 1 else 0) := by
    intro p _
    by_cases hc : tc.papers.contains p.id = true
    · rw [if_pos hc]
      exact count_allPairs_le_one _ (paperConceptIds_nodup concepts p.id hwf) s t
    · rw [if_neg hc]
      rcases Nat.eq_zero_or_pos (pairCount (allPairs (paperConceptIds concepts p.id)) s t)
        with h0 | h0
      · exact h0.le
      · exact absurd (mem_paperConceptIds concepts p.id t tc hwf ht
          (mem_allPairs _ _ (mem_of_pairCount_pos _ _ _ h0)).2) hc
  calc (store.map (fun p => pairCount (allPairs (paperConceptIds concepts p.id)) s t)).sum
      ≤ (store.map (fun p => if tc.papers.contains p.id = true then 1 else 0)).sum :=
        List.sum_le_sum hterm
    _ = (store.filter (fun p => tc.papers.contains p.id)).length :=
        sum_ite_eq_length_filter store _
    _ ≤ tc.papers.length := filter_store_le store tc.papers hstore
    _ ≤ tc.frequency := hfreq

/-- C3 (amended): `buildRelationships` has no explicit `min(freq) == 0`
guard (the counterexample shows such a pair being emitted); however, for
every concept map in which all frequencies are positive — as the
extraction rule guarantees — both endpoints of every emitted edge resolve
to concepts whose minimum frequency is positive, so the weight division
never has a zero divisor. -/
theorem C3_amended_positive_divisor :
    ∀ (store : List Paper) (concepts : List (String × ConceptNode)),
    (∀ en ∈ concepts, 1 ≤ (en : String × ConceptNode).2.frequency) →
    ∀ ed ∈ buildRelationships store concepts,
    ∃ sc tc, alookup ed.source concepts = some sc
      ∧ alookup ed.target concepts = some tc
      ∧ 0 < min sc.frequency tc.frequency := by
  intro store concepts h ed hed
  rcases mem_buildRelationships store concepts ed hed with
    ⟨s, ts, t, cnt, sc, tc, _, _, hs, ht, _, rfl⟩
  refine ⟨sc, tc, hs, ht, ?_⟩
  rw [lt_min_iff]
  exact ⟨h _ (alookup_mem hs), h _ (alookup_mem ht)⟩

/-- C3 witness: the amended statement at the one-paper fixture corpus. -/
theorem C3_amended_witness :
    ∃ sc tc,
      alookup ((buildRelationships [fixPaperW] (extractConcepts [fixPaperW])).headD
          defaultEdge).source (extractConcepts [fixPaperW]) = some sc
      ∧ alookup ((buildRelationships [fixPaperW] (extractConcepts [fixPaperW])).headD
          defaultEdge).target (extractConcepts [fixPaperW]) = some tc
      ∧ 0 < min sc.frequency tc.frequency :=
  C3_amended_positive_divisor [fixPaperW] (extractConcepts [fixPaperW]) (by decide)
    ((buildRelationships [fixPaperW] (extractConcepts [fixPaperW])).headD defaultEdge)
    (by decide)

/-- C9: over a concept map produced by `extractConcepts` and a
duplicate-free paper store, every emitted edge satisfies
`0.1 < weight ≤ 1` and `0 < confidence ≤ 1`, with
`weight = count / min(freq)` and `confidence = count / max(freq)`. -/
theorem C9_edge_bounds :
    ∀ (store ps : List Paper), (store.map Paper.id).Nodup →
    ∀ e ∈ buildRelationships store (extractConcepts ps),
    1/10 < e.weight ∧ e.weight ≤ 1 ∧ 0 < e.confidence ∧ e.confidence ≤ 1 := by
  intro store ps hstore e he
  have hwf := extractConcepts_wf ps
  rcases mem_buildRelationships store (extractConcepts ps) e he with
    ⟨s, ts, t, cnt, sc, tc, hmemS, hmemT, hs, ht, hguard, rfl⟩
  have hcoWF := coWF_cooccurrenceMap store (extractConcepts ps)
  have hts : alookup s (cooccurrenceMap store (extractConcepts ps)) = some ts :=
    alookup_of_mem_nodup hcoWF.1 hmemS
  have hcnt : alookup t ts = some cnt := alookup_of_mem_nodup (hcoWF.2 _ hmemS).1 hmemT
  have hcc : cooCount (cooccurrenceMap store (extractConcepts ps)) s t = cnt := by
    unfold cooCount
    rw [hts]
    simp [hcnt]
  have hpos : 1 ≤ cnt := (hcoWF.2 _ hmemS).2 _ hmemT
  have hle1 : cnt ≤ sc.frequency :=
    hcc ▸ cooCount_le_freq_src store (extractConcepts ps) s t sc hstore hwf hs
  have hle2 : cnt ≤ tc.frequency :=
    hcc ▸ cooCount_le_freq_tgt store (extractConcepts ps) s t tc hstore hwf ht
  have hf1 : 1 ≤ sc.frequency := (hwf.2 _ (alookup_mem hs)).2.2
  have hf2 : 1 ≤ tc.frequency := (hwf.2 _ (alookup_mem ht)).2.2
  have hmn : 1 ≤ min sc.frequency tc.frequency := le_min hf1 hf2
  have hmx : 1 ≤ max sc.frequency tc.frequency := le_trans hf1 (le_max_left _ _)
  have hcntmn : cnt ≤ min sc.frequency tc.frequency := le_min hle1 hle2
  have hcntmx : cnt ≤ max sc.frequency tc.frequency :=
    le_trans hle1 (le_max_left _ _)
  have hmnQ : (0 : ℚ) < ((min sc.frequency tc.frequency : ℕ) : ℚ) := by
    exact_mod_cast Nat.lt_of_lt_of_le Nat.zero_lt_one hmn
  have hmxQ : (0 : ℚ) < ((max sc.frequency tc.frequency : ℕ) : ℚ) := by
    exact_mod_cast Nat.lt_of_lt_of_le Nat.zero_lt_one hmx
  refine ⟨?_, ?_, ?_, ?_⟩
  · unfold weightGuard at hguard
    rw [if_neg (by omega : ¬ (min sc.frequency tc.frequency = 0))] at hguard
    exact of_decide_eq_true hguard
  · exact div_le_one_of_le₀ (by exact_mod_cast hcntmn) (le_of_lt hmnQ)
  · exact div_pos (by exact_mod_cast Nat.lt_of_lt_of_le Nat.zero_lt_one hpos) hmxQ
  · exact div_le_one_of_le₀ (by exact_mod_cast hcntmx) (le_of_lt hmxQ)

/-- C9 witness: the bounds on the first edge of the one-paper fixture
corpus. -/
theorem C9_witness :
    (([fixPaperW] : List Paper).map Paper.id).Nodup
    ∧ (1/10 < ((buildRelationships [fixPaperW] (extractConcepts [fixPaperW])).headD
          defaultEdge).weight
      ∧ ((buildRelationships [fixPaperW] (extractConcepts [fixPaperW])).headD
          defaultEdge).weight ≤ 1
      ∧ 0 < ((buildRelationships [fixPaperW] (extractConcepts [fixPaperW])).headD
          defaultEdge).confidence
      ∧ ((buildRelationships [fixPaperW] (extractConcepts [fixPaperW])).headD
          defaultEdge).confidence ≤ 1) :=
  ⟨by decide,
   C9_edge_bounds [fixPaperW] [fixPaperW] (by decide)
     ((buildRelationships [fixPaperW] (extractConcepts [fixPaperW])).headD defaultEdge)
     (by decide)⟩
